import Mathlib

/-!
# A model of the Iris server storage subsystem

This file gives a shallow embedding of the storage core of the Iris fleet
monitoring server (`server/src/storage/{mod.rs, cache.rs, persist.rs}`) and
proves the behavioural properties claimed by its specification.

Modelling conventions:

* Rust strings are modelled as lists of Unicode code points (`Str := List Nat`).
  redb orders `&str` keys by their UTF-8 bytes; for valid UTF-8 this order
  coincides with code-point lexicographic order, which `lexCompare` implements.
* The two redb tables are association lists (`tblGet` / `tblInsert` /
  `tblRemove`); a reachable table never holds a key twice, which the invariant
  `NodupKeys` records.
* `bincode` serialisation of a `MetricsRequest` is treated as the identity:
  the `metrics` table stores the sample itself.  The fields of
  `MetricsRequest` other than `agent_id` and `timestamp` are bundled into one
  opaque `payload` field, which is all the storage core ever does with them.
* The wall-clock nanoseconds and the `KEY_SEQUENCE` counter that feed the key
  nonce are explicit parameters (`nowNanos`, the store's `keySeq` field).
* `tokio::task::spawn_blocking`, transactions and chunked deletes only affect
  scheduling and transaction granularity, not the resulting store state; each
  operation is modelled as one state transformation.  In particular the
  chunked key removal of the delete operations is modelled by a single fold.
-/

namespace Iris

/-- A Rust string, as its list of Unicode code points. -/
abbrev Str := List Nat

/-- Lexicographic comparison of strings; this is redb's `&str` key order. -/
def lexCompare : Str → Str → Ordering
  | [], [] => .eq
  | [], _ :: _ => .lt
  | _ :: _, [] => .gt
  | a :: s, b :: t =>
    match compare a b with
    | .eq => lexCompare s t
    | o => o

/-- `k`-digit base-`b` numeral of `n % b^k`, most significant digit first,
each digit rendered through the character map `f`.  Models Rust's
zero-padded `format!` width specifiers. -/
def padBase (b : Nat) (f : Nat → Nat) : Nat → Nat → Str
  | 0, _ => []
  | k + 1, n => f (n / b ^ k % b) :: padBase b f k (n % b ^ k)

/-- Zero-padded decimal of width `k` (digit characters `'0'..'9'`). -/
def padDec (k n : Nat) : Str := padBase 10 (fun d => 48 + d) k n

/-- Lower-case hexadecimal digit character, as used by `format!("{:x}")`. -/
def hexChar (d : Nat) : Nat := if d < 10 then 48 + d else 87 + d

/-- Zero-padded lower-case hexadecimal of width `k`. -/
def padHex (k n : Nat) : Str := padBase 16 hexChar k n

/-- `i64::MAX`. -/
def maxI64 : Nat := 2 ^ 63 - 1

/-- `format!("{:020}", ts)` for a signed 64-bit `ts`: Rust zero-pads to the
requested width after the sign, and every `i64` has at most 19 decimal
digits, so the output is exactly 20 characters. -/
def fmtTs (t : Int) : Str :=
  if t < 0 then 45 :: padDec 19 t.natAbs else padDec 20 t.toNat

/-- `PersistStorage::make_key`: `"{agent_id}\0{ts:020}\0{nanos:032x}{seq:016x}"`. -/
def make_key (agentId : Str) (t : Int) (nowNanos seq : Nat) : Str :=
  agentId ++ 0 :: (fmtTs t ++ 0 :: (padHex 32 nowNanos ++ padHex 16 seq))

/-- `str::split_once(sep)`: split at the first occurrence of `sep`. -/
def splitAtFirst (sep : Nat) : Str → Option (Str × Str)
  | [] => none
  | c :: rest =>
    if c = sep then some ([], rest)
    else (splitAtFirst sep rest).map fun p => (c :: p.1, p.2)

/-- `s.split(sep).next().unwrap_or(s)`: the prefix before the first
occurrence of `sep` (the whole string if `sep` does not occur). -/
def takeUntil (sep : Nat) : Str → Str
  | [] => []
  | c :: rest => if c = sep then [] else c :: takeUntil sep rest

/-- `str::rsplit_once(sep)`: split at the last occurrence of `sep`. -/
def rsplitOnce (sep : Nat) (s : Str) : Option (Str × Str) :=
  match splitAtFirst sep s.reverse with
  | some p => some (p.2.reverse, p.1.reverse)
  | none => none

/-- The digits-only decimal value of a string (meaningful when `allDigits`). -/
def digitsVal (s : Str) : Nat := s.foldl (fun acc c => acc * 10 + (c - 48)) 0

/-- Every character is an ASCII decimal digit. -/
def allDigits (s : Str) : Bool := s.all fun c => 48 ≤ c && c ≤ 57

/-- The digit-sequence part of Rust's integer parsing: non-empty, all digits. -/
def parseUnsigned (s : Str) : Option Nat :=
  if s.isEmpty then none
  else if allDigits s then some (digitsVal s) else none

/-- `str::parse::<i64>()`: optional sign (`'+'` is 43, `'-'` is 45), at
least one digit, in-range. -/
def parseI64 (s : Str) : Option Int :=
  match s with
  | [] => none
  | c :: rest =>
    if c = 43 then
      (parseUnsigned rest).bind fun n =>
        if n ≤ maxI64 then some (n : Int) else none
    else if c = 45 then
      (parseUnsigned rest).bind fun n =>
        if n ≤ 2 ^ 63 then some (-(n : Int)) else none
    else
      (parseUnsigned (c :: rest)).bind fun n =>
        if n ≤ maxI64 then some (n : Int) else none

/-- `PersistStorage::parse_key`: the new format `agent\0ts\0nonce` (split at
the first NUL, timestamp up to the next NUL), falling back to the legacy
`agent:ts` format (split at the last colon) only when no NUL occurs. -/
def parse_key (k : Str) : Option (Str × Int) :=
  match splitAtFirst 0 k with
  | some p =>
    match parseI64 (takeUntil 0 p.2) with
    | some t => some (p.1, t)
    | none => none
  | none =>
    match rsplitOnce 58 k with
    | some p =>
      match parseI64 p.2 with
      | some t => some (p.1, t)
      | none => none
    | none => none

/-- Start of `PersistStorage::make_key_range`: `"{agent_id}\0"`. -/
def rangeStart (agentId : Str) : Str := agentId ++ [0]

/-- End of `PersistStorage::make_key_range`:
`"{agent_id}\0{i64::MAX:020}\u{10ffff}"`. -/
def rangeEnd (agentId : Str) : Str := agentId ++ 0 :: (padDec 20 maxI64 ++ [1114111])

/-- Membership in the half-open redb range `rangeStart agent .. rangeEnd agent`. -/
def inRangeB (agent k : Str) : Bool :=
  decide (lexCompare (rangeStart agent) k ≠ .gt) &&
    decide (lexCompare k (rangeEnd agent) = .lt)

/-- `str::contains` for a single character. -/
def strContains (s : Str) (c : Nat) : Bool := s.contains c

/-- A `MetricsRequest`: the storage core reads only `agent_id` and
`timestamp`; the remaining fields are the opaque `payload`. -/
structure Sample where
  agent_id : Str
  timestamp : Int
  payload : Str
  deriving DecidableEq, Repr

/-- The redb database: the `metrics` table, the `agent_latest` table and the
process-wide `KEY_SEQUENCE` counter. -/
structure Store where
  metrics : List (Str × Sample)
  agent_latest : List (Str × Int)
  keySeq : Nat
  deriving DecidableEq, Repr

/-- Table lookup (`table.get(key)`). -/
def tblGet {α : Type} : List (Str × α) → Str → Option α
  | [], _ => none
  | e :: rest, q => if e.1 = q then some e.2 else tblGet rest q

/-- Table insert (`table.insert(key, value)`): replaces the value when the
key is present, otherwise adds the entry. -/
def tblInsert {α : Type} : List (Str × α) → Str → α → List (Str × α)
  | [], k, v => [(k, v)]
  | e :: rest, k, v => if e.1 = k then (k, v) :: rest else e :: tblInsert rest k v

/-- Table remove (`table.remove(key)`). -/
def tblRemove {α : Type} : List (Str × α) → Str → List (Str × α)
  | [], _ => []
  | e :: rest, k => if e.1 = k then rest else e :: tblRemove rest k

/-- One iteration of the loop in `PersistStorage::flush_batch`: insert the
sample's row and refresh `agent_latest` when the timestamp is strictly
greater than the stored one (the stored value in this model is always a
well-formed 8-byte big-endian `i64`, so the malformed-length branch of the
source is unreachable). -/
def flushStep (now : Nat) (st : Store) (m : Sample) : Store :=
  let key := make_key m.agent_id m.timestamp now st.keySeq
  let shouldUpdate : Bool :=
    match tblGet st.agent_latest m.agent_id with
    | some existing => decide (m.timestamp > existing)
    | none => true
  { metrics := tblInsert st.metrics key m
    agent_latest :=
      if shouldUpdate then tblInsert st.agent_latest m.agent_id m.timestamp
      else st.agent_latest
    keySeq := st.keySeq + 1 }

/-- `PersistStorage::flush_batch`: early return on empty input, otherwise one
write transaction inserting every sample. -/
def flush_batch (now : Nat) (st : Store) (ms : List Sample) : Store :=
  if ms.isEmpty then st else ms.foldl (flushStep now) st

/-- `i64::MIN`. -/
def minI64 : Int := -(2 ^ 63)

/-- The per-row accumulator of `PersistStorage::get_latest_metrics`: keep the
row when its key parses to the requested agent and its timestamp is at least
the current candidate's (`i64::MIN` when there is none). -/
def latestScanStep (agent : Str) (acc : Option Sample) (e : Str × Sample) :
    Option Sample :=
  match parse_key e.1 with
  | some p =>
    if p.1 = agent then
      if ((acc.map Sample.timestamp).getD minI64) ≤ p.2 then some e.2 else acc
    else acc
  | none => acc

/-- `PersistStorage::get_latest_metrics`: scan the agent's key range, then
additionally scan the whole table for legacy (NUL-free) keys. -/
def get_latest_metrics (st : Store) (agent : Str) : Option Sample :=
  let afterRange :=
    (st.metrics.filter fun e => inRangeB agent e.1).foldl (latestScanStep agent) none
  (st.metrics.filter fun e => !strContains e.1 0).foldl (latestScanStep agent) afterRange

/-- The samples of the rows in `rows` whose key parses to the given agent. -/
def rowsForAgent (agent : Str) (rows : List (Str × Sample)) : List Sample :=
  rows.filterMap fun e =>
    match parse_key e.1 with
    | some p => if p.1 = agent then some e.2 else none
    | none => none

/-- Rust's stable `sort_by_key(|m| m.timestamp)`. -/
def sortByTs (l : List Sample) : List Sample :=
  l.insertionSort fun a b => a.timestamp ≤ b.timestamp

/-- `PersistStorage::query_latest_by_agent`: collect the agent's rows from
the key range and from legacy keys, sort by timestamp, keep the last
`limit`. -/
def query_latest_by_agent (st : Store) (agent : Str) (limit : Nat) : List Sample :=
  if limit = 0 then []
  else
    let results :=
      rowsForAgent agent (st.metrics.filter fun e => inRangeB agent e.1) ++
        rowsForAgent agent (st.metrics.filter fun e => !strContains e.1 0)
    let sorted := sortByTs results
    if limit < sorted.length then sorted.drop (sorted.length - limit) else sorted

/-- `PersistStorage::get_all_agent_ids`: the keys of `agent_latest`. -/
def get_all_agent_ids (st : Store) : List Str := st.agent_latest.map Prod.fst

/-- The `(timestamp, key)` records of the rows in `rows` whose key parses to
the given agent. -/
def recordsForAgent (agent : Str) (rows : List (Str × Sample)) : List (Int × Str) :=
  rows.filterMap fun e =>
    match parse_key e.1 with
    | some p => if p.1 = agent then some (p.2, e.1) else none
    | none => none

/-- All `(timestamp, key)` records `PersistStorage::delete_old_records`
collects for an agent: the key-range scan followed by the legacy scan. -/
def agentRecords (st : Store) (agent : Str) : List (Int × Str) :=
  recordsForAgent agent (st.metrics.filter fun e => inRangeB agent e.1) ++
    recordsForAgent agent (st.metrics.filter fun e => !strContains e.1 0)

/-- `sort_by(|a, b| a.0.cmp(&b.0).then_with(|| a.1.cmp(&b.1)))`. -/
def recLeB (a b : Int × Str) : Bool :=
  if a.1 < b.1 then true
  else if a.1 = b.1 then decide (lexCompare a.2 b.2 ≠ .gt)
  else false

/-- Rust's stable sort of delete records by `(timestamp, key)`. -/
def sortRecords (l : List (Int × Str)) : List (Int × Str) :=
  l.insertionSort fun a b => recLeB a b = true

/-- Removing a list of keys from the `metrics` table (the source does this in
chunks of at most 10 000 keys per transaction; chunking does not change the
final table). -/
def removeKeys (metrics : List (Str × Sample)) (ks : List Str) : List (Str × Sample) :=
  ks.foldl tblRemove metrics

/-- `PersistStorage::delete_old_records`: sort the agent's records by
`(timestamp, key)`; no-op when at most `keep` records exist; otherwise delete
the oldest `total - keep` and rewrite `agent_latest` to the overall maximum
remaining timestamp (removing the entry when nothing remains, i.e. when
`keep = 0`).  Returns the new store and the deleted count. -/
def delete_old_records (st : Store) (agent : Str) (keep : Nat) : Store × Nat :=
  let records := sortRecords (agentRecords st agent)
  let total := records.length
  if total ≤ keep then (st, 0)
  else
    let deleteCount := total - keep
    let keysToDelete := (records.take deleteCount).map Prod.snd
    let latestAfter : Option Int :=
      if deleteCount < total then records.getLast?.map Prod.fst else none
    let latestTbl :=
      match latestAfter with
      | some ts => tblInsert st.agent_latest agent ts
      | none => tblRemove st.agent_latest agent
    ({ st with
        metrics := removeKeys st.metrics keysToDelete
        agent_latest := latestTbl },
      keysToDelete.length)

/-- `latest_remaining_ts.map(|v| ts > v).unwrap_or(true)` update. -/
def maxOptInt (acc : Option Int) (ts : Int) : Option Int :=
  match acc with
  | some v => if ts > v then some ts else acc
  | none => some ts

/-- One row of the key-range scan of `PersistStorage::delete_before_timestamp`:
collect the key when its parsed timestamp is below the cutoff, otherwise fold
the timestamp into the maximum remaining timestamp.  (The source does not
compare the parsed id against the agent in this pass.) -/
def dbRangeStep (before : Int) (acc : List Str × Option Int) (e : Str × Sample) :
    List Str × Option Int :=
  match parse_key e.1 with
  | some p =>
    if p.2 < before then (acc.1 ++ [e.1], acc.2) else (acc.1, maxOptInt acc.2 p.2)
  | none => acc

/-- One row of the legacy scan of `PersistStorage::delete_before_timestamp`:
as `dbRangeStep`, but only for keys parsing to the requested agent. -/
def dbLegacyStep (before : Int) (agent : Str) (acc : List Str × Option Int)
    (e : Str × Sample) : List Str × Option Int :=
  match parse_key e.1 with
  | some p =>
    if p.1 = agent then
      if p.2 < before then (acc.1 ++ [e.1], acc.2) else (acc.1, maxOptInt acc.2 p.2)
    else acc
  | none => acc

/-- The key-range scan of `PersistStorage::delete_before_timestamp` for one
agent: keys whose parsed timestamp is below the cutoff, and the maximum
remaining timestamp. -/
def deleteBeforeScanRange (before : Int) (rows : List (Str × Sample)) :
    List Str × Option Int :=
  rows.foldl (dbRangeStep before) ([], none)

/-- The legacy-key scan of `PersistStorage::delete_before_timestamp` for one
agent, continuing the accumulator of the range scan. -/
def deleteBeforeScanLegacy (before : Int) (agent : Str) (rows : List (Str × Sample))
    (init : List Str × Option Int) : List Str × Option Int :=
  rows.foldl (dbLegacyStep before agent) init

/-- The combined two-pass scan `PersistStorage::delete_before_timestamp`
performs for one agent. -/
def dbScan (before : Int) (st : Store) (agent : Str) : List Str × Option Int :=
  deleteBeforeScanLegacy before agent (st.metrics.filter fun e => !strContains e.1 0)
    (deleteBeforeScanRange before (st.metrics.filter fun e => inRangeB agent e.1))

/-- The per-agent body of `PersistStorage::delete_before_timestamp`. -/
def deleteBeforeAgent (before : Int) (st : Store) (agent : Str) : Store × Nat :=
  let scan0 := deleteBeforeScanRange before (st.metrics.filter fun e => inRangeB agent e.1)
  let scan :=
    deleteBeforeScanLegacy before agent
      (st.metrics.filter fun e => !strContains e.1 0) scan0
  let latestTbl :=
    match scan.2 with
    | some ts => tblInsert st.agent_latest agent ts
    | none => tblRemove st.agent_latest agent
  ({ st with
      metrics := removeKeys st.metrics scan.1
      agent_latest := latestTbl },
    scan.1.length)

/-- `PersistStorage::delete_before_timestamp`: read the agent list from
`agent_latest` once, then process each agent in turn, accumulating the
deleted count. -/
def delete_before_timestamp (st : Store) (before : Int) : Store × Nat :=
  (st.agent_latest.map Prod.fst).foldl
    (fun acc a =>
      let r := deleteBeforeAgent before acc.1 a
      (r.1, acc.2 + r.2))
    (st, 0)

/-- A key is well formed when it is either a legacy key (no NUL byte) or a
key of the shape `make_key` produces: a NUL-free agent id, a NUL, the
20-character rendering of an in-range `i64` timestamp, a NUL, and a nonce.
The check is by parse/re-render round trip, so it is decidable. -/
def wfKeyB (k : Str) : Bool :=
  if strContains k 0 then
    match splitAtFirst 0 k with
    | some p =>
      (match parseI64 (p.2.take 20) with
       | some t => decide (fmtTs t = p.2.take 20)
       | none => false) &&
        decide ((p.2.drop 20).head? = some 0)
    | none => false
  else true

/-- Row check for invariant I1: if the row's key parses to `(a, t)` then
`agent_latest` holds an entry for `a` with value at least `t`. -/
def rowOkB (latest : List (Str × Int)) (e : Str × Sample) : Bool :=
  match parse_key e.1 with
  | some p =>
    match tblGet latest p.1 with
    | some v => decide (p.2 ≤ v)
    | none => false
  | none => true

/-- The `metrics` table holds each key at most once (it is a map). -/
def NodupKeys (st : Store) : Prop := (st.metrics.map Prod.fst).Nodup

/-- Every key in the `metrics` table is well formed. -/
def WFStore (st : Store) : Prop := ∀ e ∈ st.metrics, wfKeyB e.1 = true

/-- Invariant I1 of the specification, for every row of the table. -/
def LatestBound (st : Store) : Prop := ∀ e ∈ st.metrics, rowOkB st.agent_latest e = true

/-- Every key of `agent_latest` is a NUL-free agent id, and each id occurs
at most once (the table is a map). -/
def LatestAgentsOk (st : Store) : Prop :=
  (∀ e ∈ st.agent_latest, strContains e.1 0 = false) ∧ (st.agent_latest.map Prod.fst).Nodup

/-- The conjunction of the structural store invariants. -/
def GoodStore (st : Store) : Prop :=
  NodupKeys st ∧ WFStore st ∧ LatestBound st ∧ LatestAgentsOk st

/-- The rows of the `metrics` table whose key parses to the given agent. -/
def agentRowsOf (st : Store) (agent : Str) : List (Str × Sample) :=
  st.metrics.filter fun e => decide ((parse_key e.1).map Prod.fst = some agent)

/-- Fold step taking the running maximum of the key-parsed timestamps. -/
def rowsMaxStep (acc : Option Int) (e : Str × Sample) : Option Int :=
  match parse_key e.1 with
  | some p => maxOptInt acc p.2
  | none => acc

/-- The maximum key-parsed timestamp among the agent's rows. -/
def maxRowTs (st : Store) (agent : Str) : Option Int :=
  (agentRowsOf st agent).foldl rowsMaxStep none

/-- `agent_latest` agrees exactly with the rows present for the agent
(`agent_latest` is an index over `metrics`). -/
def LatestExact (st : Store) (agent : Str) : Prop :=
  tblGet st.agent_latest agent = maxRowTs st agent

instance (st : Store) : Decidable (NodupKeys st) := by
  unfold NodupKeys; infer_instance

instance (st : Store) : Decidable (WFStore st) := by
  unfold WFStore; infer_instance

instance (st : Store) : Decidable (LatestBound st) := by
  unfold LatestBound; infer_instance

instance (st : Store) : Decidable (LatestAgentsOk st) := by
  unfold LatestAgentsOk; infer_instance

instance (st : Store) : Decidable (GoodStore st) := by
  unfold GoodStore; infer_instance

instance (st : Store) (agent : Str) : Decidable (LatestExact st agent) := by
  unfold LatestExact; infer_instance

/-- `Cache::get_history`: the last `limit` elements of the agent's deque,
oldest first. -/
def cacheGetHistory (deque : List Sample) (limit : Nat) : List Sample :=
  if limit < deque.length then deque.drop (deque.length - limit) else deque

/-- `Cache::update`: push to the back, then pop the front while over the
size cap. -/
def cacheUpdate (maxSize : Nat) (deque : List Sample) (m : Sample) : List Sample :=
  let d := deque ++ [m]
  if maxSize < d.length then d.drop (d.length - maxSize) else d

/-- The tail worker of `Vec::dedup_by`: drop elements equal to the last
retained element `prev`, otherwise retain and continue. -/
def sampleDedupTail (prev : Sample) : List Sample → List Sample
  | [] => []
  | y :: rest =>
    if y.timestamp = prev.timestamp ∧ y = prev then sampleDedupTail prev rest
    else y :: sampleDedupTail y rest

/-- `Vec::dedup_by(|a, b| a.timestamp == b.timestamp && a == b)`: remove
consecutive duplicate samples, keeping the first of each run. -/
def sampleDedup : List Sample → List Sample
  | [] => []
  | x :: rest => x :: sampleDedupTail x rest

/-- The merge block of `Storage::get_agent_history`: append the cache
history to the persisted rows, stable-sort by timestamp, dedup, keep the
last `limit`. -/
def mergeHistory (persisted cacheHistory : List Sample) (limit : Nat) : List Sample :=
  let deduped := sampleDedup (sortByTs (persisted ++ cacheHistory))
  if limit < deduped.length then deduped.drop (deduped.length - limit) else deduped

/-- `Storage::get_agent_history`.  `persist = none` models memory-only mode;
`persist = some outcome` models persistence enabled, with `outcome` the
result of `query_latest_by_agent` (an `Except` to cover the error path). -/
def storageGetHistory (persist : Option (Except Str (List Sample)))
    (cacheDeque : List Sample) (limit : Nat) : List Sample :=
  if limit = 0 then []
  else
    let cacheHistory := cacheGetHistory cacheDeque limit
    match persist with
    | none => cacheHistory
    | some outcome =>
      if limit ≤ cacheHistory.length then cacheHistory
      else
        match outcome with
        | .ok persisted =>
          if persisted.isEmpty then cacheHistory
          else mergeHistory persisted cacheHistory limit
        | .error _ => cacheHistory

/-- `Storage::get_agent_history` as the specification describes it: empty on
`limit = 0`, the cache history in memory-only mode or when the cache already
holds `limit` entries, and otherwise the merge pipeline on the persisted rows
(the specification has no separate case for an empty persisted list). -/
def specGetHistory (persist : Option (Except Str (List Sample)))
    (cacheDeque : List Sample) (limit : Nat) : List Sample :=
  if limit = 0 then []
  else
    let cacheHistory := cacheGetHistory cacheDeque limit
    match persist with
    | none => cacheHistory
    | some outcome =>
      if limit ≤ cacheHistory.length then cacheHistory
      else
        match outcome with
        | .ok persisted => mergeHistory persisted cacheHistory limit
        | .error _ => cacheHistory

/-- `Storage::get_agent_latest`: the cache's latest when present, otherwise
the persistence result (`none` on a persistence error or in memory-only
mode). -/
def storageGetLatest (persist : Option (Except Str (Option Sample)))
    (cacheLatest : Option Sample) : Option Sample :=
  match cacheLatest with
  | some m => some m
  | none =>
    match persist with
    | some (.ok v) => v
    | some (.error _) => none
    | none => none

/-- Sorting a list of agent ids (`agents.sort()`). -/
def sortStrings (l : List Str) : List Str :=
  l.insertionSort fun a b => lexCompare a b ≠ .gt

/-- `Storage::get_all_agents`: the set union (modelled by `dedup`) of the
cache's agents with the persisted ids when those load successfully, sorted. -/
def storageGetAllAgents (cacheAgents : List Str)
    (persist : Option (Except Str (List Str))) : List Str :=
  let extra :=
    match persist with
    | some (.ok ids) => ids
    | _ => []
  sortStrings ((cacheAgents ++ extra).dedup)

/-- A queued write (`WriteRequest`); the ack sender is modelled by an
identifying number. -/
structure WriteRequest where
  metrics : Sample
  ack : Option Nat
  deriving DecidableEq, Repr

/-- The bounded mpsc write channel. -/
structure Channel where
  capacity : Nat
  queue : List WriteRequest
  deriving DecidableEq, Repr

/-- The channel has no free capacity. -/
def channelFull (c : Channel) : Prop := c.capacity ≤ c.queue.length

instance (c : Channel) : Decidable (channelFull c) := by
  unfold channelFull; infer_instance

/-- tokio's `Sender::send(..).await` on an open channel: the caller waits
until capacity is available and the message is then enqueued; the message is
never dropped. -/
def channelSend (c : Channel) (r : WriteRequest) : Channel :=
  { c with queue := c.queue ++ [r] }

/-- `Storage::enqueue_metrics`: when no sender is available, fail only if
persistence is enabled; otherwise send (awaiting capacity), attaching an ack
sender exactly when `waitPersist`.  Returns the channel afterwards and
whether the enqueue itself succeeded (for an enqueued request with an ack,
the final result of `save_metrics_sync` additionally awaits the batch
writer's ack). -/
def enqueue_metrics (persistEnabled : Bool) (tx : Option Channel) (m : Sample)
    (waitPersist : Bool) (ackId : Nat) : Option Channel × Bool :=
  match tx with
  | none => (none, !persistEnabled)
  | some ch =>
    (some (channelSend ch { metrics := m, ack := if waitPersist then some ackId else none }),
      true)

/-- The configuration-independent part of the `Storage` handle state. -/
structure StorageState where
  persistEnabled : Bool
  writeTx : Option Channel
  hasWriterTask : Bool
  hasCleanupTask : Bool
  persist : Option Store
  deriving Repr

/-- `Storage::with_config`, with the outcome of `PersistStorage::new`
supplied as `initResult` (`none` models an open/create failure): without a
database path, memory-only; with a path, full start-up on success and a
silent fallback to the memory-only shape on failure. -/
def with_config (dbPath : Option Str) (enableCleanup : Bool) (channelCapacity : Nat)
    (initResult : Option Store) : StorageState :=
  match dbPath with
  | none => ⟨false, none, false, false, none⟩
  | some _ =>
    match initResult with
    | some st => ⟨true, some ⟨channelCapacity, []⟩, true, enableCleanup, some st⟩
    | none => ⟨false, none, false, false, none⟩

/-- `Storage::save_metrics` (`save_async`): update the cache, then enqueue
without an ack; an enqueue failure is only logged. -/
def save_metrics (stg : StorageState) (maxSize : Nat) (deque : List Sample)
    (m : Sample) : StorageState × List Sample :=
  let r := enqueue_metrics stg.persistEnabled stg.writeTx m false 0
  ({ stg with writeTx := r.1 }, cacheUpdate maxSize deque m)

/-- `Storage::save_metrics_sync` (`save_sync`): update the cache, then
enqueue with an ack.  The returned `Bool` is whether the call has succeeded
so far (when a request was enqueued, the overall result additionally awaits
the writer's ack for that request). -/
def save_metrics_sync (stg : StorageState) (maxSize : Nat) (deque : List Sample)
    (m : Sample) (ackId : Nat) : StorageState × List Sample × Bool :=
  let r := enqueue_metrics stg.persistEnabled stg.writeTx m true ackId
  ({ stg with writeTx := r.1 }, cacheUpdate maxSize deque m, r.2)

/-- The batch writer's mutable state: the sample buffer and the ack senders
of the buffered acked requests. -/
structure WriterState where
  buffer : List Sample
  pendingAcks : List Nat
  deriving DecidableEq, Repr

/-- `Storage::flush_buffer`, with the result of `PersistStorage::flush_batch`
supplied as `flushOutcome`.  Returns the writer state afterwards, the list
of ack messages delivered, and the success flag. -/
def flush_buffer (flushOutcome : Except Str Unit) (ws : WriterState) :
    WriterState × List (Nat × Except Str Unit) × Bool :=
  if ws.buffer.isEmpty then (ws, [], true)
  else
    match flushOutcome with
    | .ok _ => (⟨[], []⟩, ws.pendingAcks.map fun a => (a, .ok ()), true)
    | .error _ => (ws, [], false)

/-- The error message `"batch writer stopped before data was persisted"`
(its exact characters are immaterial to the model). -/
def stoppedMsg : Str := [115, 116, 111, 112, 112, 101, 100]

/-- The tail of `Storage::batch_writer_task`: after the channel closes, a
final flush of a non-empty buffer; when it fails, every pending ack receives
a terminal error.  Returns the ack messages delivered. -/
def writer_final_flush (flushOutcome : Except Str Unit) (ws : WriterState) :
    List (Nat × Except Str Unit) :=
  if ws.buffer.isEmpty then []
  else
    let r := flush_buffer flushOutcome ws
    if r.2.2 then r.2.1
    else r.2.1 ++ r.1.pendingAcks.map fun a => (a, .error stoppedMsg)

/-- A sample as the server receives it over the wire: a NUL-free agent id
and an `i64` timestamp. -/
def SampleOk (m : Sample) : Prop :=
  0 ∉ m.agent_id ∧ minI64 ≤ m.timestamp ∧ m.timestamp ≤ (maxI64 : Int)

instance (m : Sample) : Decidable (SampleOk m) := by
  unfold SampleOk; infer_instance

/-- The keys `flush_batch` generates for a batch, in order. -/
def batchKeys (now : Nat) : Nat → List Sample → List Str
  | _, [] => []
  | seq, m :: ms => make_key m.agent_id m.timestamp now seq :: batchKeys now (seq + 1) ms

/-- The rows `flush_batch` generates for a batch, in order. -/
def newRows (now : Nat) : Nat → List Sample → List (Str × Sample)
  | _, [] => []
  | seq, m :: ms => (make_key m.agent_id m.timestamp now seq, m) :: newRows now (seq + 1) ms

/-- The maximum timestamp a batch contains for an agent, if any. -/
def batchMaxTs (agent : Str) (ms : List Sample) : Option Int :=
  ms.foldl (fun acc m => if m.agent_id = agent then maxOptInt acc m.timestamp else acc) none

/-- Combine an optional old maximum with an optional new maximum. -/
def optMax2 : Option Int → Option Int → Option Int
  | none, p => p
  | some v, none => some v
  | some v, some w => some (max v w)

/-! ## Lexicographic order lemmas -/

theorem natCompare_swap (a b : Nat) : compare a b = (compare b a).swap := by
  rcases lt_trichotomy a b with h | h | h
  · simp [compare_lt_iff_lt.2 h, compare_gt_iff_gt.2 h, Ordering.swap]
  · simp [h, compare_eq_iff_eq.2 rfl, Ordering.swap]
  · simp [compare_gt_iff_gt.2 h, compare_lt_iff_lt.2 h, Ordering.swap]

theorem natCompare_add_left (c a b : Nat) : compare (c + a) (c + b) = compare a b := by
  rcases lt_trichotomy a b with h | h | h
  · simp [compare_lt_iff_lt.2 h, compare_lt_iff_lt.2 (by omega : c + a < c + b)]
  · subst h
    rw [compare_eq_iff_eq.2 rfl, compare_eq_iff_eq.2 rfl]
  · simp [compare_gt_iff_gt.2 h, compare_gt_iff_gt.2 (by omega : c + b < c + a)]

theorem lexCompare_eq_iff : ∀ s t : Str, lexCompare s t = .eq ↔ s = t
  | [], [] => by simp [lexCompare]
  | [], _ :: _ => by simp [lexCompare]
  | _ :: _, [] => by simp [lexCompare]
  | a :: s, b :: t => by
    rcases lt_trichotomy a b with h | h | h
    · simp only [lexCompare, compare_lt_iff_lt.2 h]
      simp only [List.cons.injEq]
      exact ⟨fun hh => absurd hh (by simp), fun hh => absurd hh.1 (by omega)⟩
    · subst h
      simp [lexCompare, compare_eq_iff_eq.2 rfl, lexCompare_eq_iff s t]
    · simp only [lexCompare, compare_gt_iff_gt.2 h]
      simp only [List.cons.injEq]
      exact ⟨fun hh => absurd hh (by simp), fun hh => absurd hh.1 (by omega)⟩

theorem lexCompare_refl (s : Str) : lexCompare s s = .eq :=
  (lexCompare_eq_iff s s).2 rfl

theorem lexCompare_append_left : ∀ (p s t : Str),
    lexCompare (p ++ s) (p ++ t) = lexCompare s t
  | [], _, _ => rfl
  | c :: p, s, t => by
    simp [lexCompare, compare_eq_iff_eq.2 (rfl : c = c), lexCompare_append_left p s t]

theorem lexCompare_append_congr : ∀ (s t u v : Str), s.length = t.length →
    lexCompare (s ++ u) (t ++ v) = (lexCompare s t).then (lexCompare u v)
  | [], [], _, _, _ => by simp [lexCompare, Ordering.then]
  | [], _ :: _, _, _, h => by simp at h
  | _ :: _, [], _, _, h => by simp at h
  | a :: s, b :: t, u, v, h => by
    have hlen : s.length = t.length := by simpa using h
    rcases lt_trichotomy a b with hab | hab | hab
    · simp [lexCompare, compare_lt_iff_lt.2 hab, Ordering.then]
    · subst hab
      simp [lexCompare, compare_eq_iff_eq.2 rfl, lexCompare_append_congr s t u v hlen]
    · simp [lexCompare, compare_gt_iff_gt.2 hab, Ordering.then]

theorem lexCompare_self_append (s u : Str) :
    lexCompare s (s ++ u) = if u.isEmpty then Ordering.eq else Ordering.lt := by
  have h := lexCompare_append_left s [] u
  rw [List.append_nil] at h
  rw [h]
  cases u <;> simp [lexCompare]

theorem lexCompare_swap : ∀ s t : Str, lexCompare s t = (lexCompare t s).swap
  | [], [] => rfl
  | [], _ :: _ => rfl
  | _ :: _, [] => rfl
  | a :: s, b :: t => by
    rcases lt_trichotomy a b with h | h | h
    · simp [lexCompare, compare_lt_iff_lt.2 h, compare_gt_iff_gt.2 h, Ordering.swap]
    · subst h
      simp [lexCompare, compare_eq_iff_eq.2 rfl, lexCompare_swap s t]
    · simp [lexCompare, compare_gt_iff_gt.2 h, compare_lt_iff_lt.2 h, Ordering.swap]

theorem lexNulSep : ∀ (a b u v : Str), 0 ∉ a → 0 ∉ b → a ≠ b →
    lexCompare (a ++ 0 :: u) (b ++ 0 :: v) = lexCompare a b
  | [], [], _, _, _, _, hne => absurd rfl hne
  | [], c :: b, u, v, _, hb, _ => by
    have hc : 0 < c := by
      have : c ≠ 0 := fun h => hb (h ▸ List.mem_cons_self _ _)
      omega
    simp [lexCompare, compare_lt_iff_lt.2 hc]
  | c :: a, [], u, v, ha, _, _ => by
    have hc : 0 < c := by
      have : c ≠ 0 := fun h => ha (h ▸ List.mem_cons_self _ _)
      omega
    simp [lexCompare, compare_gt_iff_gt.2 hc]
  | c :: a, d :: b, u, v, ha, hb, hne => by
    rcases lt_trichotomy c d with h | h | h
    · simp [lexCompare, compare_lt_iff_lt.2 h]
    · subst h
      have ha2 : 0 ∉ a := fun h => ha (List.mem_cons_of_mem _ h)
      have hb2 : 0 ∉ b := fun h => hb (List.mem_cons_of_mem _ h)
      have hne2 : a ≠ b := fun h => hne (h ▸ rfl)
      simp [lexCompare, compare_eq_iff_eq.2 rfl, lexNulSep a b u v ha2 hb2 hne2]
    · simp [lexCompare, compare_gt_iff_gt.2 h]

theorem rangeNulStructure : ∀ (a k w : Str), 0 ∉ a →
    lexCompare (a ++ [0]) k ≠ .gt → lexCompare k (a ++ 0 :: w) = .lt →
    ∃ rest, k = a ++ 0 :: rest
  | [], [], w, _, hlo, _ => by simp [lexCompare] at hlo
  | [], c :: k, w, _, hlo, hhi => by
    rcases Nat.lt_trichotomy c 0 with h | h | h
    · omega
    · exact ⟨k, by simp [h]⟩
    · rw [List.nil_append] at hhi
      simp [lexCompare, compare_gt_iff_gt.2 h] at hhi
  | c :: a, [], w, _, hlo, _ => by simp [lexCompare] at hlo
  | c :: a, d :: k, w, ha, hlo, hhi => by
    rcases lt_trichotomy c d with h | h | h
    · rw [List.cons_append] at hhi
      simp [lexCompare, compare_gt_iff_gt.2 h] at hhi
    · subst h
      rw [List.cons_append] at hlo hhi
      simp only [lexCompare, compare_eq_iff_eq.2 (rfl : c = c)] at hlo hhi
      have ha2 : 0 ∉ a := fun h => ha (List.mem_cons_of_mem _ h)
      obtain ⟨rest, hrest⟩ := rangeNulStructure a k w ha2 hlo hhi
      exact ⟨rest, by simp [hrest]⟩
    · rw [List.cons_append] at hlo
      simp [lexCompare, compare_gt_iff_gt.2 h] at hlo

/-! ## Padded numeral lemmas -/

theorem option_some_bind {α β : Type} (a : α) (f : α → Option β) :
    (some a).bind f = f a := rfl

theorem ordering_eq_then (o : Ordering) : Ordering.eq.then o = o := rfl

theorem ordering_lt_then (o : Ordering) : Ordering.lt.then o = .lt := rfl

theorem ordering_gt_then (o : Ordering) : Ordering.gt.then o = .gt := rfl

theorem lexCompare_cons (a b : Nat) (s t : Str) :
    lexCompare (a :: s) (b :: t) = (compare a b).then (lexCompare s t) := by
  rcases lt_trichotomy a b with h | h | h
  · simp [lexCompare, compare_lt_iff_lt.2 h, Ordering.then]
  · subst h
    simp [lexCompare, compare_eq_iff_eq.2 rfl, Ordering.then]
  · simp [lexCompare, compare_gt_iff_gt.2 h, Ordering.then]

theorem padBase_length (b : Nat) (f : Nat → Nat) : ∀ k n, (padBase b f k n).length = k
  | 0, _ => rfl
  | k + 1, n => by simp [padBase, padBase_length b f k]

theorem padBase_mem (b : Nat) (f : Nat → Nat) (hb : 0 < b) :
    ∀ k n c, c ∈ padBase b f k n → ∃ d, d < b ∧ c = f d
  | k + 1, n, c, h => by
    rw [padBase] at h
    rcases List.mem_cons.1 h with h | h
    · exact ⟨n / b ^ k % b, Nat.mod_lt _ hb, h⟩
    · exact padBase_mem b f hb k _ c h

theorem lexCompare_padBase (b : Nat) (f : Nat → Nat) (hb : 0 < b)
    (hf : ∀ x, x < b → ∀ y, y < b → compare (f x) (f y) = compare x y) :
    ∀ k n m, n < b ^ k → m < b ^ k →
      lexCompare (padBase b f k n) (padBase b f k m) = compare n m
  | 0, n, m, hn, hm => by
    have hn0 : n = 0 := by simpa using hn
    have hm0 : m = 0 := by simpa using hm
    subst hn0; subst hm0
    rw [padBase, lexCompare, compare_eq_iff_eq.2 rfl]
  | k + 1, n, m, hn, hm => by
    have hbk : 0 < b ^ k := Nat.pos_pow_of_pos k hb
    have hdn : n / b ^ k < b := by
      rw [Nat.div_lt_iff_lt_mul hbk]
      calc n < b ^ (k + 1) := hn
        _ = b * b ^ k := by ring
    have hdm : m / b ^ k < b := by
      rw [Nat.div_lt_iff_lt_mul hbk]
      calc m < b ^ (k + 1) := hm
        _ = b * b ^ k := by ring
    have hlt : ∀ x y : Nat, x < b ^ (k + 1) → y < b ^ (k + 1) →
        x / b ^ k < y / b ^ k → x < y := by
      intro x y hx hy hxy
      have ex : b ^ k * (x / b ^ k) + x % b ^ k = x := Nat.div_add_mod x (b ^ k)
      have mx : x % b ^ k < b ^ k := Nat.mod_lt x hbk
      have step1 : x < b ^ k * (x / b ^ k + 1) := by
        rw [Nat.mul_add, Nat.mul_one]
        omega
      have step2 : b ^ k * (x / b ^ k + 1) ≤ b ^ k * (y / b ^ k) :=
        Nat.mul_le_mul_left _ hxy
      have step3 : b ^ k * (y / b ^ k) ≤ y := by
        rw [Nat.mul_comm]
        exact Nat.div_mul_le_self y (b ^ k)
      exact lt_of_lt_of_le step1 (le_trans step2 step3)
    rw [padBase, padBase, lexCompare_cons, Nat.mod_eq_of_lt hdn, Nat.mod_eq_of_lt hdm,
      hf _ hdn _ hdm]
    rcases lt_trichotomy (n / b ^ k) (m / b ^ k) with h | h | h
    · rw [compare_lt_iff_lt.2 h, compare_lt_iff_lt.2 (hlt n m hn hm h), ordering_lt_then]
    · rw [compare_eq_iff_eq.2 h, ordering_eq_then]
      have ih := lexCompare_padBase b f hb hf k (n % b ^ k) (m % b ^ k)
        (Nat.mod_lt n hbk) (Nat.mod_lt m hbk)
      rw [ih]
      conv_rhs =>
        rw [← Nat.div_add_mod n (b ^ k), ← Nat.div_add_mod m (b ^ k), h,
          natCompare_add_left]
    · rw [compare_gt_iff_gt.2 h, compare_gt_iff_gt.2 (hlt m n hm hn h), ordering_gt_then]

theorem hexChar_compare : ∀ x, x < 16 → ∀ y, y < 16 →
    compare (hexChar x) (hexChar y) = compare x y := by
  decide

theorem lexCompare_padDec (k n m : Nat) (hn : n < 10 ^ k) (hm : m < 10 ^ k) :
    lexCompare (padDec k n) (padDec k m) = compare n m :=
  lexCompare_padBase 10 _ (by omega) (fun x _ y _ => natCompare_add_left 48 x y) k n m hn hm

theorem lexCompare_padHex (k n m : Nat) (hn : n < 16 ^ k) (hm : m < 16 ^ k) :
    lexCompare (padHex k n) (padHex k m) = compare n m :=
  lexCompare_padBase 16 hexChar (by omega) hexChar_compare k n m hn hm

theorem padHex_inj {k n m : Nat} (hn : n < 16 ^ k) (hm : m < 16 ^ k)
    (h : padHex k n = padHex k m) : n = m := by
  have hc := lexCompare_padHex k n m hn hm
  rw [h, lexCompare_refl] at hc
  exact compare_eq_iff_eq.1 hc.symm

theorem padDec_foldl : ∀ (k n acc : Nat), n < 10 ^ k →
    (padDec k n).foldl (fun a c => a * 10 + (c - 48)) acc = acc * 10 ^ k + n
  | 0, n, acc, h => by
    have hn0 : n = 0 := by simpa using h
    subst hn0
    simp [padDec, padBase]
  | k + 1, n, acc, h => by
    have hbk : 0 < 10 ^ k := Nat.pos_pow_of_pos k (by omega)
    have hdn : n / 10 ^ k < 10 := by
      rw [Nat.div_lt_iff_lt_mul hbk]
      calc n < 10 ^ (k + 1) := h
        _ = 10 * 10 ^ k := by ring
    rw [padDec, padBase, List.foldl_cons]
    have hstep : acc * 10 + (48 + n / 10 ^ k % 10 - 48) = acc * 10 + n / 10 ^ k := by
      rw [Nat.mod_eq_of_lt hdn, Nat.add_sub_cancel_left]
    rw [hstep]
    have ih := padDec_foldl k (n % 10 ^ k) (acc * 10 + n / 10 ^ k) (Nat.mod_lt n hbk)
    rw [padDec] at ih
    rw [ih]
    have := Nat.div_add_mod n (10 ^ k)
    calc (acc * 10 + n / 10 ^ k) * 10 ^ k + n % 10 ^ k
        = acc * (10 ^ k * 10) + (10 ^ k * (n / 10 ^ k) + n % 10 ^ k) := by ring
      _ = acc * 10 ^ (k + 1) + n := by rw [this]; ring

theorem allDigits_padDec (k n : Nat) : allDigits (padDec k n) = true := by
  rw [allDigits, List.all_eq_true]
  intro c hc
  obtain ⟨d, hd, rfl⟩ := padBase_mem 10 _ (by omega) k n c hc
  simp only [Bool.and_eq_true, decide_eq_true_eq]
  omega

theorem padDec_isEmpty (k n : Nat) (hk : 0 < k) : (padDec k n).isEmpty = false := by
  cases k with
  | zero => omega
  | succ k => simp [padDec, padBase]

theorem parseUnsigned_padDec (k n : Nat) (hk : 0 < k) (h : n < 10 ^ k) :
    parseUnsigned (padDec k n) = some n := by
  rw [parseUnsigned, padDec_isEmpty k n hk, allDigits_padDec]
  simp [digitsVal, padDec_foldl k n 0 h]

theorem zero_not_mem_padDec (k n : Nat) : 0 ∉ padDec k n := by
  intro h
  obtain ⟨d, _, hc⟩ := padBase_mem 10 _ (by omega) k n 0 h
  omega

theorem zero_not_mem_padHex (k n : Nat) : 0 ∉ padHex k n := by
  intro h
  obtain ⟨d, hd, hc⟩ := padBase_mem 16 hexChar (by omega) k n 0 h
  rw [hexChar] at hc
  split at hc <;> omega

theorem fmtTs_length (t : Int) : (fmtTs t).length = 20 := by
  rw [fmtTs]
  split <;> simp [padDec, padBase_length]

theorem zero_not_mem_fmtTs (t : Int) : 0 ∉ fmtTs t := by
  rw [fmtTs]
  split
  · intro h
    rcases List.mem_cons.1 h with h | h
    · omega
    · exact zero_not_mem_padDec _ _ h
  · exact zero_not_mem_padDec _ _

theorem maxI64_lt_pow19 : maxI64 < 10 ^ 19 := by
  rw [maxI64]
  norm_num

theorem padDec_succ (k n : Nat) :
    padDec (k + 1) n = (48 + n / 10 ^ k % 10) :: padDec k (n % 10 ^ k) := rfl

theorem parseI64_fmtTs (t : Int) (h1 : minI64 ≤ t) (h2 : t ≤ (maxI64 : Int)) :
    parseI64 (fmtTs t) = some t := by
  rw [fmtTs]
  split
  · rename_i ht
    have habs : t.natAbs ≤ 2 ^ 63 := by
      rw [minI64] at h1
      omega
    have habs10 : t.natAbs < 10 ^ 19 := by
      have h63 : (2 : Nat) ^ 63 < 10 ^ 19 := by norm_num
      omega
    simp only [parseI64, show ((45 : Nat) = 43) = False by simp,
      show ((45 : Nat) = 45) = True by simp, if_false, if_true]
    rw [parseUnsigned_padDec 19 t.natAbs (by omega) habs10, option_some_bind,
      if_pos habs]
    congr 1
    omega
  · rename_i ht
    have htn : t.toNat ≤ maxI64 := by
      rw [maxI64] at h2 ⊢
      omega
    have htn20 : t.toNat < 10 ^ 20 := by
      have := maxI64_lt_pow19
      have h19 : (10 : Nat) ^ 19 < 10 ^ 20 := by norm_num
      omega
    rw [show (20 : Nat) = 19 + 1 from rfl, padDec_succ]
    simp only [parseI64]
    rw [if_neg (by omega), if_neg (by omega), ← padDec_succ,
      show (19 : Nat) + 1 = 20 from rfl,
      parseUnsigned_padDec 20 t.toNat (by omega) htn20, option_some_bind,
      if_pos htn]
    congr 1
    omega

/-! ## Key construction and parsing lemmas -/

theorem strContains_iff (s : Str) (c : Nat) : strContains s c = true ↔ c ∈ s := by
  induction s with
  | nil => simp [strContains]
  | cons d s ih =>
    rw [strContains] at ih ⊢
    simp only [List.contains_cons, Bool.or_eq_true, beq_iff_eq, List.mem_cons, ih]

theorem splitAtFirst_append_not_mem (sep : Nat) :
    ∀ (a r : Str), sep ∉ a → splitAtFirst sep (a ++ sep :: r) = some (a, r)
  | [], r, _ => by rw [List.nil_append, splitAtFirst, if_pos rfl]
  | c :: a, r, h => by
    have hc : ¬ c = sep := fun hh => h (List.mem_cons.2 (Or.inl hh.symm))
    rw [List.cons_append, splitAtFirst, if_neg hc,
      splitAtFirst_append_not_mem sep a r fun hh => h (List.mem_cons_of_mem _ hh)]
    rfl

theorem splitAtFirst_eq_some_spec (sep : Nat) :
    ∀ (s p1 p2 : Str), splitAtFirst sep s = some (p1, p2) →
      s = p1 ++ sep :: p2 ∧ sep ∉ p1
  | [], p1, p2, h => by rw [splitAtFirst] at h; cases h
  | c :: s, p1, p2, h => by
    rw [splitAtFirst] at h
    by_cases hc : c = sep
    · rw [if_pos hc] at h
      injection h with h
      injection h with h1 h2
      subst hc
      exact ⟨by rw [← h1, ← h2, List.nil_append], by rw [← h1]; simp⟩
    · rw [if_neg hc] at h
      cases hsp : splitAtFirst sep s with
      | none => rw [hsp] at h; cases h
      | some q =>
        rw [hsp] at h
        injection h with h
        injection h with h1 h2
        obtain ⟨hs, hns⟩ := splitAtFirst_eq_some_spec sep s q.1 q.2 (by rw [hsp])
        constructor
        · rw [← h1, ← h2, List.cons_append, hs]
        · rw [← h1]
          intro hm
          rcases List.mem_cons.1 hm with hm | hm
          · exact hc hm.symm
          · exact hns hm

theorem splitAtFirst_eq_none (sep : Nat) : ∀ s : Str, sep ∉ s → splitAtFirst sep s = none
  | [], _ => rfl
  | c :: s, h => by
    have hc : ¬ c = sep := fun hh => h (List.mem_cons.2 (Or.inl hh.symm))
    rw [splitAtFirst, if_neg hc,
      splitAtFirst_eq_none sep s fun hh => h (List.mem_cons_of_mem _ hh)]
    rfl

theorem takeUntil_append_sep (sep : Nat) :
    ∀ (s t : Str), sep ∉ s → takeUntil sep (s ++ sep :: t) = s
  | [], t, _ => by rw [List.nil_append, takeUntil, if_pos rfl]
  | c :: s, t, h => by
    have hc : ¬ c = sep := fun hh => h (List.mem_cons.2 (Or.inl hh.symm))
    rw [List.cons_append, takeUntil, if_neg hc,
      takeUntil_append_sep sep s t fun hh => h (List.mem_cons_of_mem _ hh)]

theorem rsplitOnce_eq_some_spec (sep : Nat) (s f b : Str)
    (h : rsplitOnce sep s = some (f, b)) : s = f ++ sep :: b ∧ sep ∉ b := by
  rw [rsplitOnce] at h
  cases hsp : splitAtFirst sep s.reverse with
  | none => rw [hsp] at h; cases h
  | some p =>
    rw [hsp] at h
    injection h with h
    injection h with h1 h2
    obtain ⟨hs, hns⟩ := splitAtFirst_eq_some_spec sep s.reverse p.1 p.2 (by rw [hsp])
    have hrev : s = p.2.reverse ++ sep :: p.1.reverse := by
      have := congrArg List.reverse hs
      rw [List.reverse_reverse] at this
      rw [this]
      simp
    constructor
    · rw [← h1, ← h2, hrev]
    · rw [← h2]
      simp only [List.mem_reverse]
      exact hns

theorem parseI64_bounds (s : Str) (t : Int) (h : parseI64 s = some t) :
    minI64 ≤ t ∧ t ≤ (maxI64 : Int) := by
  cases s with
  | nil => rw [parseI64] at h; cases h
  | cons c rest =>
    rw [parseI64] at h
    split at h
    · obtain ⟨n, hn, hf⟩ := Option.bind_eq_some.1 h
      split at hf
      · rename_i hle
        injection hf with hf
        rw [maxI64] at hle
        rw [minI64, maxI64]
        omega
      · cases hf
    · split at h
      · obtain ⟨n, hn, hf⟩ := Option.bind_eq_some.1 h
        split at hf
        · rename_i hle
          injection hf with hf
          rw [minI64, maxI64]
          omega
        · cases hf
      · obtain ⟨n, hn, hf⟩ := Option.bind_eq_some.1 h
        split at hf
        · rename_i hle
          injection hf with hf
          rw [maxI64] at hle
          rw [minI64, maxI64]
          omega
        · cases hf

theorem parse_key_wf_form (a : Str) (t : Int) (rest : Str) (ha : 0 ∉ a)
    (h1 : minI64 ≤ t) (h2 : t ≤ (maxI64 : Int)) :
    parse_key (a ++ 0 :: (fmtTs t ++ 0 :: rest)) = some (a, t) := by
  simp only [parse_key, splitAtFirst_append_not_mem 0 a _ ha,
    takeUntil_append_sep 0 (fmtTs t) rest (zero_not_mem_fmtTs t),
    parseI64_fmtTs t h1 h2]

theorem parse_key_make_key (a : Str) (t : Int) (nn sq : Nat) (ha : 0 ∉ a)
    (h1 : minI64 ≤ t) (h2 : t ≤ (maxI64 : Int)) :
    parse_key (make_key a t nn sq) = some (a, t) :=
  parse_key_wf_form a t (padHex 32 nn ++ padHex 16 sq) ha h1 h2

theorem wfKeyB_wf_form (a : Str) (t : Int) (rest : Str) (ha : 0 ∉ a)
    (h1 : minI64 ≤ t) (h2 : t ≤ (maxI64 : Int)) :
    wfKeyB (a ++ 0 :: (fmtTs t ++ 0 :: rest)) = true := by
  have hc : strContains (a ++ 0 :: (fmtTs t ++ 0 :: rest)) 0 = true :=
    (strContains_iff _ _).2 (by simp)
  have htake : (fmtTs t ++ 0 :: rest).take 20 = fmtTs t := by
    rw [← fmtTs_length t]
    exact List.take_left _ _
  have hdrop : (fmtTs t ++ 0 :: rest).drop 20 = 0 :: rest := by
    rw [← fmtTs_length t]
    exact List.drop_left _ _
  rw [wfKeyB, if_pos hc, splitAtFirst_append_not_mem 0 a _ ha]
  simp [htake, hdrop, parseI64_fmtTs t h1 h2]

theorem wfKeyB_make_key (a : Str) (t : Int) (nn sq : Nat) (ha : 0 ∉ a)
    (h1 : minI64 ≤ t) (h2 : t ≤ (maxI64 : Int)) :
    wfKeyB (make_key a t nn sq) = true :=
  wfKeyB_wf_form a t (padHex 32 nn ++ padHex 16 sq) ha h1 h2

theorem wfKeyB_structure (k : Str) (hw : wfKeyB k = true) (hc : strContains k 0 = true) :
    ∃ a t rest, k = a ++ 0 :: (fmtTs t ++ 0 :: rest) ∧ 0 ∉ a ∧
      minI64 ≤ t ∧ t ≤ (maxI64 : Int) := by
  rw [wfKeyB, if_pos hc] at hw
  split at hw
  · rename_i p hsp
    rw [Bool.and_eq_true] at hw
    obtain ⟨hw1, hhead⟩ := hw
    rw [decide_eq_true_eq] at hhead
    split at hw1
    · rename_i t hpt
      rw [decide_eq_true_eq] at hw1
      obtain ⟨hs, hns⟩ := splitAtFirst_eq_some_spec 0 k p.1 p.2 (by rw [hsp])
      obtain ⟨tail, htail⟩ : ∃ tail, p.2.drop 20 = 0 :: tail := by
        cases hd : p.2.drop 20 with
        | nil => rw [hd] at hhead; cases hhead
        | cons x xs =>
          rw [hd] at hhead
          injection hhead with hx
          exact ⟨xs, by rw [hx]⟩
      have hbounds := parseI64_bounds _ t hpt
      refine ⟨p.1, t, tail, ?_, hns, hbounds.1, hbounds.2⟩
      rw [hs]
      have hp2 : p.2 = fmtTs t ++ 0 :: tail := by
        calc p.2 = p.2.take 20 ++ p.2.drop 20 := (List.take_append_drop _ _).symm
          _ = fmtTs t ++ 0 :: tail := by rw [← hw1, htail]
      rw [hp2]
    · cases hw1
  · cases hw

theorem padDec20_max_cons :
    padDec 20 maxI64 = (48 + maxI64 / 10 ^ 19 % 10) :: padDec 19 (maxI64 % 10 ^ 19) := rfl

theorem lexCompare_self_append_cons (s : Str) (c : Nat) (u : Str) :
    lexCompare s (s ++ c :: u) = .lt := by
  have h := lexCompare_append_left s [] (c :: u)
  rw [List.append_nil] at h
  rw [h]
  rfl

theorem fmtTs_le_max (t : Int) (h2 : t ≤ (maxI64 : Int)) :
    (lexCompare (fmtTs t) (padDec 20 maxI64)).then Ordering.lt = Ordering.lt := by
  rw [fmtTs]
  split
  · rw [padDec20_max_cons, lexCompare_cons,
      compare_lt_iff_lt.2 (by omega : (45 : Nat) < 48 + maxI64 / 10 ^ 19 % 10),
      ordering_lt_then, ordering_lt_then]
  · rename_i ht
    have htn : t.toNat ≤ maxI64 := by
      rw [maxI64] at h2 ⊢
      omega
    have hm20 : maxI64 < 10 ^ 20 := by
      have := maxI64_lt_pow19
      have h19 : (10 : Nat) ^ 19 < 10 ^ 20 := by norm_num
      omega
    rw [lexCompare_padDec 20 t.toNat maxI64 (by omega) hm20]
    rcases Nat.lt_or_ge t.toNat maxI64 with h | h
    · rw [compare_lt_iff_lt.2 h, ordering_lt_then]
    · have heq : t.toNat = maxI64 := by omega
      rw [compare_eq_iff_eq.2 heq, ordering_eq_then]

theorem inRangeB_wf_form (a : Str) (t : Int) (rest : Str)
    (h2 : t ≤ (maxI64 : Int)) :
    inRangeB a (a ++ 0 :: (fmtTs t ++ 0 :: rest)) = true := by
  obtain ⟨c, cs, hft⟩ : ∃ c cs, fmtTs t = c :: cs := by
    cases hft : fmtTs t with
    | nil =>
      have := fmtTs_length t
      rw [hft] at this
      simp at this
    | cons x xs => exact ⟨x, xs, rfl⟩
  rw [inRangeB, Bool.and_eq_true, decide_eq_true_eq, decide_eq_true_eq]
  constructor
  · have hk : a ++ 0 :: (fmtTs t ++ 0 :: rest) =
        (a ++ [0]) ++ (c :: (cs ++ 0 :: rest)) := by
      rw [hft]
      simp
    rw [rangeStart, hk, lexCompare_self_append_cons]
    intro hh
    cases hh
  · rw [rangeEnd]
    have hk1 : a ++ 0 :: (fmtTs t ++ 0 :: rest) = (a ++ [0]) ++ (fmtTs t ++ 0 :: rest) := by
      simp
    have hk2 : a ++ 0 :: (padDec 20 maxI64 ++ [1114111]) =
        (a ++ [0]) ++ (padDec 20 maxI64 ++ [1114111]) := by
      simp
    rw [hk1, hk2, lexCompare_append_left,
      lexCompare_append_congr (fmtTs t) (padDec 20 maxI64) _ _
        (by rw [fmtTs_length, padDec, padBase_length]),
      lexCompare_cons, compare_lt_iff_lt.2 (by omega : (0 : Nat) < 1114111),
      ordering_lt_then, fmtTs_le_max t h2]

theorem inRangeB_make_key (a : Str) (t : Int) (nn sq : Nat)
    (h2 : t ≤ (maxI64 : Int)) : inRangeB a (make_key a t nn sq) = true :=
  inRangeB_wf_form a t (padHex 32 nn ++ padHex 16 sq) h2

theorem inRangeB_structure (a k : Str) (ha : 0 ∉ a) (h : inRangeB a k = true) :
    ∃ rest, k = a ++ 0 :: rest := by
  rw [inRangeB, Bool.and_eq_true, decide_eq_true_eq, decide_eq_true_eq] at h
  obtain ⟨hlo, hhi⟩ := h
  rw [rangeStart] at hlo
  rw [rangeEnd] at hhi
  exact rangeNulStructure a k _ ha hlo hhi

theorem inRangeB_contains_zero (a k : Str) (ha : 0 ∉ a) (h : inRangeB a k = true) :
    strContains k 0 = true := by
  obtain ⟨rest, hrest⟩ := inRangeB_structure a k ha h
  rw [hrest]
  exact (strContains_iff _ _).2 (by simp)

theorem inRangeB_agent_unique (a b rest : Str) (ha : 0 ∉ a) (hb : 0 ∉ b)
    (h : inRangeB a (b ++ 0 :: rest) = true) : b = a := by
  by_contra hne
  rw [inRangeB, Bool.and_eq_true, decide_eq_true_eq, decide_eq_true_eq] at h
  obtain ⟨hlo, hhi⟩ := h
  have hhi2 : lexCompare b a = .lt := by
    rw [rangeEnd, lexNulSep b a rest _ hb ha hne] at hhi
    exact hhi
  have hx : lexCompare (a ++ 0 :: ([] : Str)) (b ++ 0 :: rest) = lexCompare a b :=
    lexNulSep a b [] rest ha hb fun hh => hne hh.symm
  rw [rangeStart, show a ++ [0] = a ++ 0 :: ([] : Str) from rfl, hx,
    lexCompare_swap a b, hhi2] at hlo
  exact hlo rfl

theorem legacy_not_in_range (a k : Str) (ha : 0 ∉ a) (hk : strContains k 0 = false) :
    inRangeB a k = false := by
  rcases Bool.eq_false_or_eq_true (inRangeB a k) with h | h
  · have hz := inRangeB_contains_zero a k ha h
    rw [hz] at hk
    cases hk
  · exact h

theorem parse_key_in_range (a k : Str) (ha : 0 ∉ a) (hw : wfKeyB k = true)
    (h : inRangeB a k = true) : ∃ t, parse_key k = some (a, t) := by
  have hc := inRangeB_contains_zero a k ha h
  obtain ⟨a2, t, rest, hk, ha2, hb1, hb2⟩ := wfKeyB_structure k hw hc
  have heq : a2 = a := by
    apply inRangeB_agent_unique a a2 (fmtTs t ++ 0 :: rest) ha ha2
    rw [← hk]
    exact h
  subst heq
  exact ⟨t, by rw [hk]; exact parse_key_wf_form a2 t rest ha2 hb1 hb2⟩

theorem wf_parse_in_range (a k : Str) (t : Int) (ha : 0 ∉ a) (hw : wfKeyB k = true)
    (hc : strContains k 0 = true) (hp : parse_key k = some (a, t)) :
    inRangeB a k = true := by
  obtain ⟨a2, t2, rest, hk, ha2, hb1, hb2⟩ := wfKeyB_structure k hw hc
  have := parse_key_wf_form a2 t2 rest ha2 hb1 hb2
  rw [hk, this] at hp
  injection hp with hp
  injection hp with hp1 hp2
  subst hp1
  rw [hk]
  exact inRangeB_wf_form a2 t2 rest (hp2 ▸ hb2)

theorem parse_key_no_zero (k a : Str) (t : Int) (hk : strContains k 0 = false)
    (h : parse_key k = some (a, t)) : 0 ∉ a := by
  have hz : (0 : Nat) ∉ k := by
    intro hm
    rw [(strContains_iff k 0).2 hm] at hk
    cases hk
  rw [parse_key] at h
  split at h
  · rename_i p hsp
    obtain ⟨hs, _⟩ := splitAtFirst_eq_some_spec 0 k p.1 p.2 (by rw [hsp])
    exact absurd (by rw [hs]; simp : (0 : Nat) ∈ k) hz
  · split at h
    · rename_i p hrs
      split at h
      · rename_i t2 hpi
        injection h with h
        injection h with h1 h2
        obtain ⟨hs, _⟩ := rsplitOnce_eq_some_spec 58 k p.1 p.2 (by rw [hrs])
        intro hm
        rw [← h1] at hm
        exact hz (by rw [hs]; exact List.mem_append.2 (Or.inl hm))
      · cases h
    · cases h

theorem make_key_nonce (a : Str) (t : Int) (nn sq : Nat) :
    (make_key a t nn sq).reverse.take 16 = (padHex 16 sq).reverse := by
  rw [make_key]
  simp only [List.reverse_append, List.reverse_cons, List.append_assoc]
  set L := (padHex 16 sq).reverse with hL
  have hlen : L.length = 16 := by
    rw [hL, List.length_reverse, padHex, padBase_length]
  rw [← hlen, List.take_left]

theorem make_key_inj_seq (a1 a2 : Str) (t1 t2 : Int) (n1 n2 s1 s2 : Nat)
    (hs1 : s1 < 16 ^ 16) (hs2 : s2 < 16 ^ 16)
    (h : make_key a1 t1 n1 s1 = make_key a2 t2 n2 s2) : s1 = s2 := by
  have h1 := make_key_nonce a1 t1 n1 s1
  have h2 := make_key_nonce a2 t2 n2 s2
  rw [h] at h1
  rw [h1] at h2
  have hp : padHex 16 s1 = padHex 16 s2 := by
    have := congrArg List.reverse h2
    rwa [List.reverse_reverse, List.reverse_reverse] at this
  exact padHex_inj hs1 hs2 hp

/-! ## Association table lemmas -/

theorem tblGet_insert {α : Type} :
    ∀ (l : List (Str × α)) (k : Str) (v : α) (q : Str),
      tblGet (tblInsert l k v) q = if k = q then some v else tblGet l q
  | [], k, v, q => by
    by_cases hkq : k = q <;> simp [tblInsert, tblGet, hkq]
  | e :: rest, k, v, q => by
    by_cases hek : e.1 = k
    · by_cases hkq : k = q <;> simp [tblInsert, tblGet, hek, hkq]
    · by_cases heq : e.1 = q
      · have hkq : ¬ k = q := by
          rw [← heq]
          exact fun hh => hek hh.symm
        have hqk : ¬ q = k := fun hh => hkq hh.symm
        simp [tblInsert, tblGet, hek, heq, hkq, hqk]
      · simp [tblInsert, tblGet, hek, heq, tblGet_insert rest k v q]

theorem tblGet_remove_ne {α : Type} :
    ∀ (l : List (Str × α)) (k q : Str), ¬ k = q →
      tblGet (tblRemove l k) q = tblGet l q
  | [], _, _, _ => rfl
  | e :: rest, k, q, h => by
    rw [tblRemove]
    by_cases hek : e.1 = k
    · rw [if_pos hek, tblGet, if_neg (by rw [hek]; exact h)]
    · rw [if_neg hek, tblGet, tblGet]
      by_cases heq : e.1 = q
      · rw [if_pos heq, if_pos heq]
      · rw [if_neg heq, if_neg heq, tblGet_remove_ne rest k q h]

theorem tblGet_mem_keys {α : Type} :
    ∀ (l : List (Str × α)) (k : Str) (v : α), tblGet l k = some v → k ∈ l.map Prod.fst
  | [], _, _, h => by cases h
  | e :: rest, k, v, h => by
    rw [tblGet] at h
    by_cases hek : e.1 = k
    · rw [List.map_cons, ← hek]
      exact List.mem_cons_self _ _
    · rw [if_neg hek] at h
      exact List.mem_cons_of_mem _ (tblGet_mem_keys rest k v h)

theorem tblGet_remove_self {α : Type} :
    ∀ (l : List (Str × α)) (k : Str), (l.map Prod.fst).Nodup →
      tblGet (tblRemove l k) k = none
  | [], _, _ => rfl
  | e :: rest, k, h => by
    rw [List.map_cons, List.nodup_cons] at h
    rw [tblRemove]
    by_cases hek : e.1 = k
    · rw [if_pos hek]
      cases hget : tblGet rest k with
      | none => rfl
      | some v => exact absurd (hek ▸ tblGet_mem_keys rest k v hget) h.1
    · rw [if_neg hek, tblGet, if_neg hek, tblGet_remove_self rest k h.2]

theorem mem_tblInsert_sub {α : Type} :
    ∀ (l : List (Str × α)) (k : Str) (v : α) (e : Str × α),
      e ∈ tblInsert l k v → e = (k, v) ∨ e ∈ l
  | [], k, v, e, h => by
    rw [tblInsert] at h
    exact Or.inl (List.mem_singleton.1 h)
  | f :: rest, k, v, e, h => by
    rw [tblInsert] at h
    by_cases hfk : f.1 = k
    · rw [if_pos hfk] at h
      rcases List.mem_cons.1 h with h | h
      · exact Or.inl h
      · exact Or.inr (List.mem_cons_of_mem _ h)
    · rw [if_neg hfk] at h
      rcases List.mem_cons.1 h with h | h
      · exact Or.inr (h ▸ List.mem_cons_self _ _)
      · rcases mem_tblInsert_sub rest k v e h with h | h
        · exact Or.inl h
        · exact Or.inr (List.mem_cons_of_mem _ h)

theorem mem_tblRemove_sub {α : Type} :
    ∀ (l : List (Str × α)) (k : Str) (e : Str × α), e ∈ tblRemove l k → e ∈ l
  | [], _, _, h => by cases h
  | f :: rest, k, e, h => by
    rw [tblRemove] at h
    by_cases hfk : f.1 = k
    · rw [if_pos hfk] at h
      exact List.mem_cons_of_mem _ h
    · rw [if_neg hfk] at h
      rcases List.mem_cons.1 h with h | h
      · exact h ▸ List.mem_cons_self _ _
      · exact List.mem_cons_of_mem _ (mem_tblRemove_sub rest k e h)

theorem mem_keys_tblInsert_sub {α : Type} (l : List (Str × α)) (k : Str) (v : α) (q : Str)
    (h : q ∈ (tblInsert l k v).map Prod.fst) : q = k ∨ q ∈ l.map Prod.fst := by
  obtain ⟨e, he, rfl⟩ := List.mem_map.1 h
  rcases mem_tblInsert_sub l k v e he with h | h
  · exact Or.inl (by rw [h])
  · exact Or.inr (List.mem_map.2 ⟨e, h, rfl⟩)

theorem keys_tblInsert_nodup {α : Type} :
    ∀ (l : List (Str × α)) (k : Str) (v : α), (l.map Prod.fst).Nodup →
      ((tblInsert l k v).map Prod.fst).Nodup
  | [], k, v, _ => by simp [tblInsert]
  | e :: rest, k, v, h => by
    rw [List.map_cons, List.nodup_cons] at h
    rw [tblInsert]
    by_cases hek : e.1 = k
    · rw [if_pos hek, List.map_cons, List.nodup_cons]
      exact ⟨by rw [← hek]; exact h.1, h.2⟩
    · rw [if_neg hek, List.map_cons, List.nodup_cons]
      refine ⟨fun hm => ?_, keys_tblInsert_nodup rest k v h.2⟩
      rcases mem_keys_tblInsert_sub rest k v e.1 hm with hh | hh
      · exact hek hh
      · exact h.1 hh

theorem keys_tblRemove_nodup {α : Type} :
    ∀ (l : List (Str × α)) (k : Str), (l.map Prod.fst).Nodup →
      ((tblRemove l k).map Prod.fst).Nodup
  | [], _, h => h
  | e :: rest, k, h => by
    rw [List.map_cons, List.nodup_cons] at h
    rw [tblRemove]
    by_cases hek : e.1 = k
    · rw [if_pos hek]
      exact h.2
    · rw [if_neg hek, List.map_cons, List.nodup_cons]
      refine ⟨fun hm => ?_, keys_tblRemove_nodup rest k h.2⟩
      obtain ⟨f, hf, hfe⟩ := List.mem_map.1 hm
      exact h.1 (List.mem_map.2 ⟨f, mem_tblRemove_sub rest k f hf, hfe⟩)

theorem mem_tblRemove {α : Type} :
    ∀ (l : List (Str × α)) (k : Str) (e : Str × α), (l.map Prod.fst).Nodup →
      (e ∈ tblRemove l k ↔ e ∈ l ∧ ¬ e.1 = k)
  | [], k, e, _ => by simp [tblRemove]
  | f :: rest, k, e, h => by
    rw [List.map_cons, List.nodup_cons] at h
    rw [tblRemove]
    by_cases hfk : f.1 = k
    · rw [if_pos hfk]
      constructor
      · intro he
        refine ⟨List.mem_cons_of_mem _ he, fun hek => ?_⟩
        exact h.1 (List.mem_map.2 ⟨e, he, by rw [hek, hfk]⟩)
      · rintro ⟨he, hek⟩
        rcases List.mem_cons.1 he with he | he
        · exact absurd (by rw [he]; exact hfk) hek
        · exact he
    · rw [if_neg hfk, List.mem_cons, mem_tblRemove rest k e h.2, List.mem_cons]
      constructor
      · rintro (he | ⟨he, hek⟩)
        · exact ⟨Or.inl he, by rw [he]; exact hfk⟩
        · exact ⟨Or.inr he, hek⟩
      · rintro ⟨he | he, hek⟩
        · exact Or.inl he
        · exact Or.inr ⟨he, hek⟩

theorem mem_removeKeys :
    ∀ (ks : List Str) (l : List (Str × Sample)) (e : Str × Sample),
      (l.map Prod.fst).Nodup →
      (e ∈ removeKeys l ks ↔ e ∈ l ∧ e.1 ∉ ks)
  | [], l, e, _ => by simp [removeKeys]
  | k :: ks, l, e, h => by
    have hrec := mem_removeKeys ks (tblRemove l k) e (keys_tblRemove_nodup l k h)
    have hstep : removeKeys l (k :: ks) = removeKeys (tblRemove l k) ks := rfl
    rw [hstep, hrec, mem_tblRemove l k e h, List.mem_cons, not_or, and_assoc]

theorem removeKeys_nodup :
    ∀ (ks : List Str) (l : List (Str × Sample)), (l.map Prod.fst).Nodup →
      ((removeKeys l ks).map Prod.fst).Nodup
  | [], _, h => h
  | k :: ks, l, h => removeKeys_nodup ks (tblRemove l k) (keys_tblRemove_nodup l k h)

theorem mem_of_tblGet {α : Type} :
    ∀ (l : List (Str × α)) (k : Str) (v : α), tblGet l k = some v → (k, v) ∈ l
  | [], _, _, h => by cases h
  | (ek, ev) :: rest, k, v, h => by
    rw [tblGet] at h
    by_cases hek : (ek, ev).1 = k
    · rw [if_pos hek] at h
      injection h with h
      rw [← hek, ← h]
      exact List.mem_cons_self _ _
    · rw [if_neg hek] at h
      exact List.mem_cons_of_mem _ (mem_of_tblGet rest k v h)

theorem tblGet_of_mem {α : Type} :
    ∀ (l : List (Str × α)) (k : Str) (v : α), (l.map Prod.fst).Nodup →
      (k, v) ∈ l → tblGet l k = some v
  | [], _, _, _, hm => by cases hm
  | e :: rest, k, v, hn, hm => by
    rw [List.map_cons, List.nodup_cons] at hn
    rw [tblGet]
    rcases List.mem_cons.1 hm with hm | hm
    · rw [← hm]
      simp
    · by_cases hek : e.1 = k
      · exact absurd (hek ▸ List.mem_map.2 ⟨(k, v), hm, rfl⟩ : e.1 ∈ rest.map Prod.fst) hn.1
      · rw [if_neg hek]
        exact tblGet_of_mem rest k v hn.2 hm

/-! ## flush_batch lemmas -/

theorem maxOptInt_some (v ts : Int) : maxOptInt (some v) ts = some (max v ts) := by
  rw [maxOptInt]
  rcases le_or_lt ts v with h | h
  · rw [if_neg (by omega), max_eq_left h]
  · rw [if_pos h, max_eq_right (le_of_lt h)]

theorem tblInsert_fresh {α : Type} :
    ∀ (l : List (Str × α)) (k : Str) (v : α), k ∉ l.map Prod.fst →
      tblInsert l k v = l ++ [(k, v)]
  | [], _, _, _ => rfl
  | e :: rest, k, v, h => by
    rw [List.map_cons] at h
    have hek : ¬ e.1 = k := fun hh => h (List.mem_cons.2 (Or.inl hh.symm))
    rw [tblInsert, if_neg hek,
      tblInsert_fresh rest k v fun hh => h (List.mem_cons_of_mem _ hh),
      List.cons_append]

theorem flushStep_metrics (now : Nat) (st : Store) (m : Sample) :
    (flushStep now st m).metrics =
      tblInsert st.metrics (make_key m.agent_id m.timestamp now st.keySeq) m := rfl

theorem flushStep_keySeq (now : Nat) (st : Store) (m : Sample) :
    (flushStep now st m).keySeq = st.keySeq + 1 := rfl

theorem flushStep_latest (now : Nat) (st : Store) (m : Sample) (agent : Str) :
    tblGet (flushStep now st m).agent_latest agent =
      if m.agent_id = agent then maxOptInt (tblGet st.agent_latest agent) m.timestamp
      else tblGet st.agent_latest agent := by
  by_cases hag : m.agent_id = agent
  · subst hag
    rw [if_pos rfl]
    cases hold : tblGet st.agent_latest m.agent_id with
    | none => simp [flushStep, hold, tblGet_insert, maxOptInt]
    | some v =>
      by_cases hts : v < m.timestamp
      · simp [flushStep, hold, hts, tblGet_insert, maxOptInt]
      · simp [flushStep, hold, hts, maxOptInt]
  · rw [if_neg hag]
    cases hold : tblGet st.agent_latest m.agent_id with
    | none => simp [flushStep, hold, tblGet_insert, hag]
    | some v =>
      by_cases hts : v < m.timestamp
      · simp [flushStep, hold, hts, tblGet_insert, hag]
      · simp [flushStep, hold, hts]

theorem optMax2_none_right : ∀ o : Option Int, optMax2 o none = o
  | none => rfl
  | some _ => rfl

theorem optMax2_maxOptInt (o : Option Int) (ts : Int) (X : Option Int) :
    optMax2 (maxOptInt o ts) X = optMax2 o (optMax2 (some ts) X) := by
  cases o with
  | none => rfl
  | some v =>
    rw [maxOptInt_some]
    cases X with
    | none => rfl
    | some w =>
      show some (max (max v ts) w) = some (max v (max ts w))
      rw [max_assoc]

theorem batchMaxTs_shift (agent : Str) :
    ∀ (ms : List Sample) (o : Option Int),
      ms.foldl (fun acc m => if m.agent_id = agent then maxOptInt acc m.timestamp else acc) o =
        optMax2 o (batchMaxTs agent ms)
  | [], o => (optMax2_none_right o).symm
  | m :: ms, o => by
    rw [batchMaxTs, List.foldl_cons, List.foldl_cons]
    by_cases hag : m.agent_id = agent
    · rw [if_pos hag, if_pos hag, batchMaxTs_shift agent ms (maxOptInt o m.timestamp),
        batchMaxTs_shift agent ms (maxOptInt none m.timestamp),
        show maxOptInt none m.timestamp = some m.timestamp from rfl, optMax2_maxOptInt]
    · rw [if_neg hag, if_neg hag, batchMaxTs_shift agent ms o]
      rfl

theorem foldl_flush_latest (now : Nat) (agent : Str) :
    ∀ (ms : List Sample) (st : Store),
      tblGet (ms.foldl (flushStep now) st).agent_latest agent =
        optMax2 (tblGet st.agent_latest agent) (batchMaxTs agent ms)
  | [], _ => (optMax2_none_right _).symm
  | m :: ms, st => by
    rw [List.foldl_cons, foldl_flush_latest now agent ms (flushStep now st m),
      flushStep_latest,
      show batchMaxTs agent (m :: ms) =
        List.foldl (fun acc x => if x.agent_id = agent then maxOptInt acc x.timestamp else acc)
          (if m.agent_id = agent then maxOptInt none m.timestamp else none) ms from rfl]
    by_cases hag : m.agent_id = agent
    · rw [if_pos hag, if_pos hag,
        batchMaxTs_shift agent ms (maxOptInt none m.timestamp),
        show maxOptInt none m.timestamp = some m.timestamp from rfl, optMax2_maxOptInt]
    · rw [if_neg hag, if_neg hag]
      rfl

theorem foldl_flush_metrics (now : Nat) :
    ∀ (ms : List Sample) (st : Store),
      (∀ k ∈ batchKeys now st.keySeq ms, k ∉ st.metrics.map Prod.fst) →
      (batchKeys now st.keySeq ms).Nodup →
      (ms.foldl (flushStep now) st).metrics = st.metrics ++ newRows now st.keySeq ms
  | [], st, _, _ => by rw [List.foldl_nil, newRows, List.append_nil]
  | m :: ms, st, hf, hd => by
    rw [batchKeys] at hf hd
    rw [List.nodup_cons] at hd
    have hkey : make_key m.agent_id m.timestamp now st.keySeq ∉ st.metrics.map Prod.fst :=
      hf _ (List.mem_cons_self _ _)
    have hmet : (flushStep now st m).metrics =
        st.metrics ++ [(make_key m.agent_id m.timestamp now st.keySeq, m)] := by
      rw [flushStep_metrics, tblInsert_fresh _ _ _ hkey]
    have hseq : (flushStep now st m).keySeq = st.keySeq + 1 := rfl
    have hf2 : ∀ k ∈ batchKeys now (flushStep now st m).keySeq ms,
        k ∉ (flushStep now st m).metrics.map Prod.fst := by
      intro k hk
      rw [hseq] at hk
      rw [hmet, List.map_append, List.mem_append]
      rintro (hin | hin)
      · exact hf k (List.mem_cons_of_mem _ hk) hin
      · rw [List.map_singleton, List.mem_singleton] at hin
        rw [hin] at hk
        exact hd.1 hk
    have hd2 : (batchKeys now (flushStep now st m).keySeq ms).Nodup := by
      rw [hseq]
      exact hd.2
    rw [List.foldl_cons, foldl_flush_metrics now ms _ hf2 hd2, hmet, hseq, newRows,
      List.append_assoc, List.singleton_append]

theorem mem_batchKeys (now : Nat) :
    ∀ (ms : List Sample) (seq0 : Nat) (k : Str), k ∈ batchKeys now seq0 ms →
      ∃ m i, m ∈ ms ∧ i < ms.length ∧ k = make_key m.agent_id m.timestamp now (seq0 + i)
  | [], _, _, h => by cases h
  | m :: ms, seq0, k, h => by
    rw [batchKeys] at h
    rcases List.mem_cons.1 h with h | h
    · exact ⟨m, 0, List.mem_cons_self _ _, by simp, by rw [h, Nat.add_zero]⟩
    · obtain ⟨m2, i, hm, hi, hk⟩ := mem_batchKeys now ms (seq0 + 1) k h
      refine ⟨m2, i + 1, List.mem_cons_of_mem _ hm, ?_, ?_⟩
      · rw [List.length_cons]
        omega
      · rw [hk]
        congr 1
        omega

theorem batchKeys_nodup (now : Nat) :
    ∀ (ms : List Sample) (seq0 : Nat), seq0 + ms.length ≤ 16 ^ 16 →
      (batchKeys now seq0 ms).Nodup
  | [], _, _ => List.nodup_nil
  | m :: ms, seq0, hb => by
    rw [List.length_cons] at hb
    rw [batchKeys, List.nodup_cons]
    constructor
    · intro hmem
      obtain ⟨m2, i, hm, hi, hk⟩ := mem_batchKeys now ms (seq0 + 1) _ hmem
      have hs1 : seq0 < 16 ^ 16 := by omega
      have hs2 : seq0 + 1 + i < 16 ^ 16 := by omega
      have := make_key_inj_seq m.agent_id m2.agent_id m.timestamp m2.timestamp
        now now seq0 (seq0 + 1 + i) hs1 hs2 hk
      omega
    · exact batchKeys_nodup now ms (seq0 + 1) (by omega)

theorem newRows_length (now : Nat) :
    ∀ (ms : List Sample) (seq0 : Nat), (newRows now seq0 ms).length = ms.length
  | [], _ => rfl
  | _ :: ms, seq0 => by
    rw [newRows, List.length_cons, newRows_length now ms (seq0 + 1), List.length_cons]

theorem newRows_map_fst (now : Nat) :
    ∀ (ms : List Sample) (seq0 : Nat),
      (newRows now seq0 ms).map Prod.fst = batchKeys now seq0 ms
  | [], _ => rfl
  | _ :: ms, seq0 => by
    rw [newRows, batchKeys, List.map_cons, newRows_map_fst now ms (seq0 + 1)]

theorem flush_batch_nil (now : Nat) (st : Store) : flush_batch now st [] = st := rfl

theorem flush_batch_metrics (now : Nat) (st : Store) (ms : List Sample)
    (hf : ∀ k ∈ batchKeys now st.keySeq ms, k ∉ st.metrics.map Prod.fst)
    (hd : (batchKeys now st.keySeq ms).Nodup) :
    (flush_batch now st ms).metrics = st.metrics ++ newRows now st.keySeq ms := by
  cases ms with
  | nil => rw [flush_batch_nil, newRows, List.append_nil]
  | cons m ms =>
    rw [flush_batch]
    exact foldl_flush_metrics now (m :: ms) st hf hd

theorem flush_batch_latest (now : Nat) (st : Store) (ms : List Sample) (agent : Str) :
    tblGet (flush_batch now st ms).agent_latest agent =
      optMax2 (tblGet st.agent_latest agent) (batchMaxTs agent ms) := by
  cases ms with
  | nil => rw [flush_batch_nil, batchMaxTs, List.foldl_nil, optMax2_none_right]
  | cons m ms =>
    rw [flush_batch]
    exact foldl_flush_latest now agent (m :: ms) st

/-! ## Invariant preservation: flush_batch -/

theorem strContains_eq_false (s : Str) (c : Nat) (h : c ∉ s) : strContains s c = false := by
  rcases Bool.eq_false_or_eq_true (strContains s c) with hb | hb
  · exact absurd ((strContains_iff s c).1 hb) h
  · exact hb

theorem rowOkB_iff (latest : List (Str × Int)) (e : Str × Sample) :
    rowOkB latest e = true ↔
      ∀ p, parse_key e.1 = some p → ∃ v, tblGet latest p.1 = some v ∧ p.2 ≤ v := by
  cases hp : parse_key e.1 with
  | none =>
    simp only [rowOkB, hp, true_iff]
    intro p hp2
    cases hp2
  | some p =>
    cases hg : tblGet latest p.1 with
    | none =>
      simp only [rowOkB, hp, hg, Bool.false_eq_true, false_iff]
      intro hall
      obtain ⟨v, hv, _⟩ := hall p rfl
      rw [hg] at hv
      cases hv
    | some v =>
      simp only [rowOkB, hp, hg, decide_eq_true_eq]
      constructor
      · intro hle q hq
        injection hq with hq
        subst hq
        exact ⟨v, hg, hle⟩
      · intro hall
        obtain ⟨w, hw, hle⟩ := hall p rfl
        rw [hg] at hw
        injection hw with hw
        subst hw
        exact hle

theorem flushStep_latest_split (now : Nat) (st : Store) (m : Sample) :
    (flushStep now st m).agent_latest = tblInsert st.agent_latest m.agent_id m.timestamp ∨
      (flushStep now st m).agent_latest = st.agent_latest := by
  cases hsu : (match tblGet st.agent_latest m.agent_id with
      | some existing => decide (m.timestamp > existing)
      | none => true : Bool) with
  | true =>
    left
    simp [flushStep, hsu]
  | false =>
    right
    simp [flushStep, hsu]

theorem flushStep_good (now : Nat) (st : Store) (m : Sample)
    (hg : GoodStore st) (hm : SampleOk m) : GoodStore (flushStep now st m) := by
  obtain ⟨hn, hw, hb, hla⟩ := hg
  obtain ⟨hma, hm1, hm2⟩ := hm
  refine ⟨keys_tblInsert_nodup _ _ _ hn, ?_, ?_, ?_⟩
  · intro e he
    rcases mem_tblInsert_sub _ _ _ _ he with he | he
    · rw [he]
      exact wfKeyB_make_key m.agent_id m.timestamp now st.keySeq hma hm1 hm2
    · exact hw e he
  · intro e he
    rw [rowOkB_iff]
    intro p hp
    have hlat := flushStep_latest now st m p.1
    rcases mem_tblInsert_sub _ _ _ _ he with he | he
    · rw [he] at hp
      rw [show ((make_key m.agent_id m.timestamp now st.keySeq, m) : Str × Sample).1 =
          make_key m.agent_id m.timestamp now st.keySeq from rfl,
        parse_key_make_key m.agent_id m.timestamp now st.keySeq hma hm1 hm2] at hp
      injection hp with hp
      subst hp
      rw [hlat, if_pos rfl]
      cases hold : tblGet st.agent_latest m.agent_id with
      | none => exact ⟨m.timestamp, rfl, le_refl _⟩
      | some v =>
        rw [maxOptInt_some]
        exact ⟨max v m.timestamp, rfl, le_max_right _ _⟩
    · obtain ⟨v, hv, hpv⟩ := (rowOkB_iff _ _).1 (hb e he) p hp
      rw [hlat]
      by_cases hag : m.agent_id = p.1
      · rw [if_pos hag, hv, maxOptInt_some]
        exact ⟨max v m.timestamp, rfl, le_trans hpv (le_max_left _ _)⟩
      · rw [if_neg hag]
        exact ⟨v, hv, hpv⟩
  · unfold LatestAgentsOk
    rcases flushStep_latest_split now st m with h | h <;> rw [h]
    · constructor
      · intro e he
        rcases mem_tblInsert_sub _ _ _ _ he with he | he
        · rw [he]
          exact strContains_eq_false m.agent_id 0 hma
        · exact hla.1 e he
      · exact keys_tblInsert_nodup _ _ _ hla.2
    · exact hla

theorem foldl_flush_good (now : Nat) :
    ∀ (ms : List Sample) (st : Store), GoodStore st → (∀ m ∈ ms, SampleOk m) →
      GoodStore (ms.foldl (flushStep now) st)
  | [], _, hg, _ => hg
  | m :: ms, st, hg, hok => by
    rw [List.foldl_cons]
    exact foldl_flush_good now ms (flushStep now st m)
      (flushStep_good now st m hg (hok m (List.mem_cons_self _ _)))
      fun x hx => hok x (List.mem_cons_of_mem _ hx)

theorem flush_batch_good (now : Nat) (st : Store) (ms : List Sample)
    (hg : GoodStore st) (hok : ∀ m ∈ ms, SampleOk m) :
    GoodStore (flush_batch now st ms) := by
  cases ms with
  | nil => exact hg
  | cons m ms =>
    rw [flush_batch]
    exact foldl_flush_good now (m :: ms) st hg hok

/-! ## Scan coverage and sorting lemmas -/

theorem mem_recordsForAgent (agent : Str) (rows : List (Str × Sample)) (r : Int × Str) :
    r ∈ recordsForAgent agent rows ↔
      ∃ v, (r.2, v) ∈ rows ∧ parse_key r.2 = some (agent, r.1) := by
  rw [recordsForAgent, List.mem_filterMap]
  constructor
  · rintro ⟨e, he, hg⟩
    cases hp : parse_key e.1 with
    | none => rw [hp] at hg; cases hg
    | some p =>
      rw [hp] at hg
      change (if p.1 = agent then some (p.2, e.1) else none) = some r at hg
      by_cases hpa : p.1 = agent
      · rw [if_pos hpa] at hg
        injection hg with hg
        refine ⟨e.2, ?_, ?_⟩
        · rw [← hg]
          exact he
        · rw [← hg, hp, ← hpa]
      · rw [if_neg hpa] at hg
        cases hg
  · rintro ⟨v, hm, hp⟩
    exact ⟨(r.2, v), hm, by simp [hp]⟩

theorem mem_agentRecords (st : Store) (agent : Str) (hw : WFStore st) (ha : 0 ∉ agent)
    (r : Int × Str) :
    r ∈ agentRecords st agent ↔
      ∃ v, (r.2, v) ∈ st.metrics ∧ parse_key r.2 = some (agent, r.1) := by
  rw [agentRecords, List.mem_append, mem_recordsForAgent, mem_recordsForAgent]
  constructor
  · rintro (⟨v, hm, hp⟩ | ⟨v, hm, hp⟩)
    · exact ⟨v, (List.mem_filter.1 hm).1, hp⟩
    · exact ⟨v, (List.mem_filter.1 hm).1, hp⟩
  · rintro ⟨v, hm, hp⟩
    by_cases hz : strContains r.2 0 = true
    · left
      exact ⟨v, List.mem_filter.2 ⟨hm, wf_parse_in_range agent r.2 r.1 ha (hw _ hm) hz hp⟩, hp⟩
    · right
      have hzf : strContains r.2 0 = false := by
        rcases Bool.eq_false_or_eq_true (strContains r.2 0) with h | h
        · exact absurd h hz
        · exact h
      refine ⟨v, List.mem_filter.2 ⟨hm, ?_⟩, hp⟩
      rw [show ((r.2, v) : Str × Sample).1 = r.2 from rfl, hzf]
      rfl

theorem filterMap_snd_sublist (g : (Str × Sample) → Option (Int × Str))
    (hg : ∀ e r, g e = some r → r.2 = e.1) :
    ∀ rows : List (Str × Sample),
      ((rows.filterMap g).map Prod.snd).Sublist (rows.map Prod.fst)
  | [] => List.nil_sublist _
  | e :: rows => by
    rw [List.filterMap_cons]
    cases hge : g e with
    | none =>
      rw [List.map_cons]
      exact (filterMap_snd_sublist g hg rows).cons _
    | some r =>
      rw [List.map_cons, List.map_cons, hg e r hge]
      exact (filterMap_snd_sublist g hg rows).cons₂ _

theorem recordsForAgent_snd_sublist (agent : Str) (rows : List (Str × Sample)) :
    ((recordsForAgent agent rows).map Prod.snd).Sublist (rows.map Prod.fst) := by
  apply filterMap_snd_sublist
  intro e r hg
  cases hp : parse_key e.1 with
  | none => rw [hp] at hg; cases hg
  | some p =>
    rw [hp] at hg
    change (if p.1 = agent then some (p.2, e.1) else none) = some r at hg
    by_cases hpa : p.1 = agent
    · rw [if_pos hpa] at hg
      injection hg with hg
      rw [← hg]
    · rw [if_neg hpa] at hg
      cases hg

theorem agentRecords_keys_nodup (st : Store) (agent : Str) (hn : NodupKeys st)
    (ha : 0 ∉ agent) : ((agentRecords st agent).map Prod.snd).Nodup := by
  rw [agentRecords, List.map_append]
  have hsub1 : ((recordsForAgent agent
      (st.metrics.filter fun e => inRangeB agent e.1)).map Prod.snd).Sublist
      (st.metrics.map Prod.fst) :=
    (recordsForAgent_snd_sublist agent _).trans
      ((List.filter_sublist _).map Prod.fst)
  have hsub2 : ((recordsForAgent agent
      (st.metrics.filter fun e => !strContains e.1 0)).map Prod.snd).Sublist
      (st.metrics.map Prod.fst) :=
    (recordsForAgent_snd_sublist agent _).trans
      ((List.filter_sublist _).map Prod.fst)
  refine List.Nodup.append (hn.sublist hsub1) (hn.sublist hsub2) ?_
  intro k hk1 hk2
  obtain ⟨r1, hr1, hk1e⟩ := List.mem_map.1 hk1
  obtain ⟨r2, hr2, hk2e⟩ := List.mem_map.1 hk2
  obtain ⟨v1, hm1, _⟩ := (mem_recordsForAgent agent _ r1).1 hr1
  obtain ⟨v2, hm2, _⟩ := (mem_recordsForAgent agent _ r2).1 hr2
  have hz1 : strContains r1.2 0 = true :=
    inRangeB_contains_zero agent r1.2 ha (List.mem_filter.1 hm1).2
  have hz2 : (!strContains r2.2 0) = true := (List.mem_filter.1 hm2).2
  rw [hk1e] at hz1
  rw [hk2e] at hz2
  rw [hz1] at hz2
  cases hz2

theorem lexCompare_trans_ngt :
    ∀ (x y z : Str), lexCompare x y ≠ .gt → lexCompare y z ≠ .gt → lexCompare x z ≠ .gt
  | [], _, z, _, _ => by
    cases z with
    | nil => rw [lexCompare]; intro h; cases h
    | cons c zs => rw [lexCompare]; intro h; cases h
  | a :: xs, y, z, h1, h2 => by
    cases y with
    | nil => rw [lexCompare] at h1; exact absurd rfl h1
    | cons b ys =>
      cases z with
      | nil => rw [lexCompare] at h2; exact absurd rfl h2
      | cons c zs =>
        rcases lt_trichotomy a b with hab | hab | hab
        · rcases lt_trichotomy b c with hbc | hbc | hbc
          · rw [lexCompare_cons, compare_lt_iff_lt.2 (lt_trans hab hbc), ordering_lt_then]
            intro h
            cases h
          · subst hbc
            rw [lexCompare_cons, compare_lt_iff_lt.2 hab, ordering_lt_then]
            intro h
            cases h
          · rw [lexCompare_cons, compare_gt_iff_gt.2 hbc, ordering_gt_then] at h2
            exact absurd rfl h2
        · subst hab
          rcases lt_trichotomy a c with hbc | hbc | hbc
          · rw [lexCompare_cons, compare_lt_iff_lt.2 hbc, ordering_lt_then]
            intro h
            cases h
          · subst hbc
            rw [lexCompare_cons, compare_eq_iff_eq.2 rfl, ordering_eq_then] at h1 h2 ⊢
            exact lexCompare_trans_ngt xs ys zs h1 h2
          · rw [lexCompare_cons, compare_gt_iff_gt.2 hbc, ordering_gt_then] at h2
            exact absurd rfl h2
        · rw [lexCompare_cons, compare_gt_iff_gt.2 hab, ordering_gt_then] at h1
          exact absurd rfl h1

theorem recLeB_refl (a : Int × Str) : recLeB a a = true := by
  rw [recLeB, if_neg (lt_irrefl _), if_pos rfl, decide_eq_true_eq, lexCompare_refl]
  intro h
  cases h

theorem recLeB_total (a b : Int × Str) : recLeB a b = true ∨ recLeB b a = true := by
  rcases lt_trichotomy a.1 b.1 with h | h | h
  · left
    rw [recLeB, if_pos h]
  · cases ho : lexCompare a.2 b.2 with
    | gt =>
      right
      rw [recLeB, if_neg (by omega), if_pos h.symm, decide_eq_true_eq,
        lexCompare_swap, ho]
      intro hh
      cases hh
    | lt =>
      left
      rw [recLeB, if_neg (by omega), if_pos h, decide_eq_true_eq, ho]
      intro hh
      cases hh
    | eq =>
      left
      rw [recLeB, if_neg (by omega), if_pos h, decide_eq_true_eq, ho]
      intro hh
      cases hh
  · right
    rw [recLeB, if_pos h]

theorem recLeB_trans (a b c : Int × Str) (h1 : recLeB a b = true)
    (h2 : recLeB b c = true) : recLeB a c = true := by
  rw [recLeB] at h1 h2 ⊢
  split at h1
  · rename_i hab
    split at h2
    · rename_i hbc
      rw [if_pos (lt_trans hab hbc)]
    · split at h2
      · rename_i hbc
        rw [if_pos (by omega)]
      · cases h2
  · split at h1
    · rename_i hab
      split at h2
      · rename_i hbc
        rw [if_pos (by omega)]
      · split at h2
        · rename_i hbc
          rw [decide_eq_true_eq] at h1 h2
          rw [if_neg (by omega), if_pos (by omega), decide_eq_true_eq]
          exact lexCompare_trans_ngt a.2 b.2 c.2 h1 h2
        · cases h2
    · cases h1

theorem recLeB_ts_le (a b : Int × Str) (h : recLeB a b = true) : a.1 ≤ b.1 := by
  rw [recLeB] at h
  split at h
  · rename_i hlt
    exact le_of_lt hlt
  · split at h
    · rename_i heq
      exact le_of_eq heq
    · cases h

theorem sortRecords_perm (l : List (Int × Str)) : List.Perm (sortRecords l) l :=
  List.perm_insertionSort _ l

theorem sortRecords_sorted (l : List (Int × Str)) :
    List.Sorted (fun a b => recLeB a b = true) (sortRecords l) := by
  letI : IsTotal (Int × Str) (fun a b => recLeB a b = true) := ⟨recLeB_total⟩
  letI : IsTrans (Int × Str) (fun a b => recLeB a b = true) := ⟨recLeB_trans⟩
  exact List.sorted_insertionSort _ l

theorem sorted_le_getLast :
    ∀ (l : List (Int × Str)), List.Sorted (fun a b => recLeB a b = true) l →
      ∀ (x : Int × Str), x ∈ l → ∀ (hne : l ≠ []), recLeB x (l.getLast hne) = true
  | [], _, x, hx, _ => by cases hx
  | [a], _, x, hx, _ => by
    rw [List.mem_singleton] at hx
    subst hx
    exact recLeB_refl _
  | a :: b :: l, hs, x, hx, hne => by
    rw [List.sorted_cons] at hs
    have hlast : (a :: b :: l).getLast hne = (b :: l).getLast (by simp) := rfl
    rw [hlast]
    rcases List.mem_cons.1 hx with hx | hx
    · subst hx
      exact hs.1 _ (List.getLast_mem _)
    · exact sorted_le_getLast (b :: l) hs.2 x hx (by simp)

theorem perm_of_nodup_mem_iff {α : Type} [DecidableEq α] {l l2 : List α}
    (hl : l.Nodup) (hl2 : l2.Nodup) (h : ∀ x, x ∈ l ↔ x ∈ l2) : List.Perm l l2 :=
  List.perm_of_nodup_nodup_toFinset_eq hl hl2 (List.toFinset.ext h)

theorem parse_map_fst_iff (k a : Str) :
    (parse_key k).map Prod.fst = some a ↔ ∃ t, parse_key k = some (a, t) := by
  cases hp : parse_key k with
  | none => simp
  | some p =>
    obtain ⟨p1, p2⟩ := p
    simp only [Option.map_some']
    constructor
    · intro h
      injection h with h
      subst h
      exact ⟨p2, rfl⟩
    · rintro ⟨t, ht⟩
      injection ht with ht
      injection ht with h1 h2
      rw [h1]

theorem mem_agentRowsOf (st : Store) (agent : Str) (e : Str × Sample) :
    e ∈ agentRowsOf st agent ↔
      e ∈ st.metrics ∧ (parse_key e.1).map Prod.fst = some agent := by
  simp only [agentRowsOf, List.mem_filter, decide_eq_true_eq]

theorem optMax2_eq_none (o p : Option Int) : optMax2 o p = none ↔ o = none ∧ p = none := by
  cases o <;> cases p <;> simp [optMax2]

theorem rowsMaxStep_none_iff (e : Str × Sample) :
    rowsMaxStep none e = none ↔ parse_key e.1 = none := by
  cases hp : parse_key e.1 with
  | none => simp [rowsMaxStep, hp]
  | some p => simp [rowsMaxStep, hp, maxOptInt]

theorem rowsMax_shift :
    ∀ (l : List (Str × Sample)) (o : Option Int),
      l.foldl rowsMaxStep o = optMax2 o (l.foldl rowsMaxStep none)
  | [], o => (optMax2_none_right o).symm
  | e :: l, o => by
    rw [List.foldl_cons, List.foldl_cons, rowsMax_shift l (rowsMaxStep o e),
      rowsMax_shift l (rowsMaxStep none e)]
    cases hp : parse_key e.1 with
    | none =>
      simp only [rowsMaxStep, hp]
      rfl
    | some p =>
      simp only [rowsMaxStep, hp]
      rw [show maxOptInt none p.2 = some p.2 from rfl, optMax2_maxOptInt]

theorem rowsMax_none :
    ∀ (l : List (Str × Sample)), l.foldl rowsMaxStep none = none →
      ∀ e ∈ l, parse_key e.1 = none
  | [], _, e, he => by cases he
  | e :: l, h, f, hf => by
    rw [List.foldl_cons, rowsMax_shift l (rowsMaxStep none e), optMax2_eq_none] at h
    rcases List.mem_cons.1 hf with hf | hf
    · rw [hf]
      exact (rowsMaxStep_none_iff e).1 h.1
    · exact rowsMax_none l h.2 f hf

theorem rowsMax_ub :
    ∀ (l : List (Str × Sample)) (v : Int), l.foldl rowsMaxStep none = some v →
      ∀ e ∈ l, ∀ p, parse_key e.1 = some p → p.2 ≤ v
  | [], v, h => by cases h
  | e :: l, v, h => by
    rw [List.foldl_cons, rowsMax_shift l (rowsMaxStep none e)] at h
    intro f hf p hp
    rcases List.mem_cons.1 hf with hf | hf
    · subst hf
      rw [rowsMaxStep, hp] at h
      cases hX : l.foldl rowsMaxStep none with
      | none =>
        rw [hX, show optMax2 (maxOptInt none p.2) none = some p.2 from rfl] at h
        injection h with h
        exact le_of_eq h
      | some w =>
        rw [hX, show optMax2 (maxOptInt none p.2) (some w) = some (max p.2 w) from rfl] at h
        injection h with h
        rw [← h]
        exact le_max_left _ _
    · cases hX : l.foldl rowsMaxStep none with
      | none =>
        have := rowsMax_none l hX f hf
        rw [this] at hp
        cases hp
      | some w =>
        have hw : p.2 ≤ w := rowsMax_ub l w hX f hf p hp
        rw [hX] at h
        cases hA : rowsMaxStep none e with
        | none =>
          rw [hA] at h
          injection h with h
          rw [← h]
          exact hw
        | some u =>
          rw [hA, show optMax2 (some u) (some w) = some (max u w) from rfl] at h
          injection h with h
          rw [← h]
          exact le_trans hw (le_max_right _ _)

theorem rowsMax_mem :
    ∀ (l : List (Str × Sample)) (v : Int), l.foldl rowsMaxStep none = some v →
      ∃ e ∈ l, ∃ p, parse_key e.1 = some p ∧ p.2 = v
  | [], v, h => by cases h
  | e :: l, v, h => by
    rw [List.foldl_cons, rowsMax_shift l (rowsMaxStep none e)] at h
    cases hA : rowsMaxStep none e with
    | none =>
      rw [hA] at h
      obtain ⟨f, hf, p, hp, hpv⟩ := rowsMax_mem l v h
      exact ⟨f, List.mem_cons_of_mem _ hf, p, hp, hpv⟩
    | some u =>
      have hpe : ∃ p, parse_key e.1 = some p ∧ p.2 = u := by
        rw [rowsMaxStep] at hA
        cases hp : parse_key e.1 with
        | none => rw [hp] at hA; cases hA
        | some p =>
          rw [hp] at hA
          change some p.2 = some u at hA
          injection hA with hA
          exact ⟨p, rfl, hA⟩
      obtain ⟨p, hp, hpu⟩ := hpe
      rw [hA] at h
      cases hX : l.foldl rowsMaxStep none with
      | none =>
        rw [hX] at h
        injection h with h
        exact ⟨e, List.mem_cons_self _ _, p, hp, by omega⟩
      | some w =>
        rw [hX, show optMax2 (some u) (some w) = some (max u w) from rfl] at h
        injection h with h
        rcases le_or_lt w u with hc | hc
        · refine ⟨e, List.mem_cons_self _ _, p, hp, ?_⟩
          rw [hpu, ← h, max_eq_left hc]
        · obtain ⟨f, hf, q, hq, hqw⟩ := rowsMax_mem l w hX
          refine ⟨f, List.mem_cons_of_mem _ hf, q, hq, ?_⟩
          rw [hqw, ← h, max_eq_right (le_of_lt hc)]

theorem rowsMax_eq (l : List (Str × Sample)) (v : Int)
    (hmem : ∃ e ∈ l, ∃ a, parse_key e.1 = some (a, v))
    (hub : ∀ e ∈ l, ∀ p, parse_key e.1 = some p → p.2 ≤ v) :
    l.foldl rowsMaxStep none = some v := by
  cases hX : l.foldl rowsMaxStep none with
  | none =>
    obtain ⟨e, he, a, hp⟩ := hmem
    rw [rowsMax_none l hX e he] at hp
    cases hp
  | some w =>
    obtain ⟨e, he, a, hp⟩ := hmem
    have h1 : v ≤ w := rowsMax_ub l w hX e he (a, v) hp
    obtain ⟨f, hf, p, hpf, hpv⟩ := rowsMax_mem l w hX
    have h2 : w ≤ v := hpv ▸ hub f hf p hpf
    rw [show w = v by omega]

/-! ## delete_old_records lemmas -/

theorem delete_old_records_noop (st : Store) (agent : Str) (keep : Nat)
    (h : (sortRecords (agentRecords st agent)).length ≤ keep) :
    delete_old_records st agent keep = (st, 0) := by
  simp only [delete_old_records]
  rw [if_pos h]

theorem delete_old_records_del (st : Store) (agent : Str) (keep : Nat)
    (h : ¬ (sortRecords (agentRecords st agent)).length ≤ keep) :
    delete_old_records st agent keep =
      ({ st with
          metrics := removeKeys st.metrics
            (((sortRecords (agentRecords st agent)).take
              ((sortRecords (agentRecords st agent)).length - keep)).map Prod.snd)
          agent_latest :=
            match (if (sortRecords (agentRecords st agent)).length - keep <
                (sortRecords (agentRecords st agent)).length then
                (sortRecords (agentRecords st agent)).getLast?.map Prod.fst
              else none) with
            | some ts => tblInsert st.agent_latest agent ts
            | none => tblRemove st.agent_latest agent },
        (((sortRecords (agentRecords st agent)).take
          ((sortRecords (agentRecords st agent)).length - keep)).map Prod.snd).length) := by
  simp only [delete_old_records]
  rw [if_neg h]

theorem mem_sortRecords (st : Store) (agent : Str) (hw : WFStore st) (ha : 0 ∉ agent)
    (r : Int × Str) :
    r ∈ sortRecords (agentRecords st agent) ↔
      ∃ v, (r.2, v) ∈ st.metrics ∧ parse_key r.2 = some (agent, r.1) := by
  rw [(sortRecords_perm (agentRecords st agent)).mem_iff]
  exact mem_agentRecords st agent hw ha r

theorem sortRecords_keys_nodup (st : Store) (agent : Str) (hn : NodupKeys st)
    (ha : 0 ∉ agent) : ((sortRecords (agentRecords st agent)).map Prod.snd).Nodup :=
  (((sortRecords_perm (agentRecords st agent)).map Prod.snd).nodup_iff).2
    (agentRecords_keys_nodup st agent hn ha)

theorem sortRecords_nodup (st : Store) (agent : Str) (hn : NodupKeys st)
    (ha : 0 ∉ agent) : (sortRecords (agentRecords st agent)).Nodup :=
  (sortRecords_keys_nodup st agent hn ha).of_map Prod.snd

theorem agentRowsOf_keys_nodup (st : Store) (agent : Str) (hn : NodupKeys st) :
    ((agentRowsOf st agent).map Prod.fst).Nodup :=
  hn.sublist ((List.filter_sublist _).map Prod.fst)

theorem agentRows_keys_perm (st : Store) (agent : Str) (hg : GoodStore st)
    (ha : 0 ∉ agent) :
    List.Perm ((agentRowsOf st agent).map Prod.fst)
      ((sortRecords (agentRecords st agent)).map Prod.snd) := by
  obtain ⟨hn, hw, _, _⟩ := hg
  apply perm_of_nodup_mem_iff (agentRowsOf_keys_nodup st agent hn)
    (sortRecords_keys_nodup st agent hn ha)
  intro k
  constructor
  · intro hk
    obtain ⟨e, he, rfl⟩ := List.mem_map.1 hk
    obtain ⟨hm, hpf⟩ := (mem_agentRowsOf st agent e).1 he
    obtain ⟨t, hp⟩ := (parse_map_fst_iff e.1 agent).1 hpf
    exact List.mem_map.2 ⟨(t, e.1), (mem_sortRecords st agent hw ha (t, e.1)).2
      ⟨e.2, hm, hp⟩, rfl⟩
  · intro hk
    obtain ⟨r, hr, rfl⟩ := List.mem_map.1 hk
    obtain ⟨v, hm, hp⟩ := (mem_sortRecords st agent hw ha r).1 hr
    refine List.mem_map.2 ⟨(r.2, v), ?_, rfl⟩
    rw [mem_agentRowsOf]
    refine ⟨hm, ?_⟩
    rw [show ((r.2, v) : Str × Sample).1 = r.2 from rfl, hp]
    rfl

theorem sortRecords_length_eq (st : Store) (agent : Str) (hg : GoodStore st)
    (ha : 0 ∉ agent) :
    (sortRecords (agentRecords st agent)).length = (agentRowsOf st agent).length := by
  have h := (agentRows_keys_perm st agent hg ha).length_eq
  rw [List.length_map, List.length_map] at h
  exact h.symm

theorem delete_old_subset (st : Store) (agent : Str) (keep : Nat) (hn : NodupKeys st)
    (e : Str × Sample) (he : e ∈ (delete_old_records st agent keep).1.metrics) :
    e ∈ st.metrics := by
  by_cases h : (sortRecords (agentRecords st agent)).length ≤ keep
  · rw [delete_old_records_noop st agent keep h] at he
    exact he
  · rw [delete_old_records_del st agent keep h] at he
    exact ((mem_removeKeys _ _ _ hn).1 he).1

theorem delete_old_mem (st : Store) (agent : Str) (keep : Nat)
    (hg : GoodStore st) (ha : 0 ∉ agent) :
    ∀ e ∈ st.metrics, ∀ t, parse_key e.1 = some (agent, t) →
      (e ∈ (delete_old_records st agent keep).1.metrics ↔
        (t, e.1) ∈ (sortRecords (agentRecords st agent)).drop
          ((sortRecords (agentRecords st agent)).length - keep)) := by
  obtain ⟨hn, hw, hb, hla⟩ := hg
  intro e he t hp
  have hmemS : (t, e.1) ∈ sortRecords (agentRecords st agent) :=
    (mem_sortRecords st agent hw ha (t, e.1)).2 ⟨e.2, he, hp⟩
  by_cases h : (sortRecords (agentRecords st agent)).length ≤ keep
  · rw [delete_old_records_noop st agent keep h]
    have hz : (sortRecords (agentRecords st agent)).length - keep = 0 := by omega
    rw [hz, List.drop_zero]
    exact ⟨fun _ => hmemS, fun _ => he⟩
  · rw [delete_old_records_del st agent keep h]
    have hdisj : ∀ r, r ∈ (sortRecords (agentRecords st agent)).take
        ((sortRecords (agentRecords st agent)).length - keep) →
        r ∉ (sortRecords (agentRecords st agent)).drop
          ((sortRecords (agentRecords st agent)).length - keep) := by
      have hnd := sortRecords_nodup st agent hn ha
      rw [← List.take_append_drop ((sortRecords (agentRecords st agent)).length - keep)
        (sortRecords (agentRecords st agent)), List.nodup_append] at hnd
      exact hnd.2.2
    have hkey : e.1 ∈ ((sortRecords (agentRecords st agent)).take
        ((sortRecords (agentRecords st agent)).length - keep)).map Prod.snd ↔
        (t, e.1) ∈ (sortRecords (agentRecords st agent)).take
          ((sortRecords (agentRecords st agent)).length - keep) := by
      constructor
      · intro hk
        obtain ⟨r, hr, hre⟩ := List.mem_map.1 hk
        have hrs : r ∈ sortRecords (agentRecords st agent) :=
          (List.take_sublist _ _).mem hr
        obtain ⟨v, hmv, hpv⟩ := (mem_sortRecords st agent hw ha r).1 hrs
        rw [hre] at hpv
        rw [hp] at hpv
        injection hpv with hpv
        injection hpv with hpv1 hpv2
        have hr2 : r = (t, e.1) := by
          rw [Prod.ext_iff]
          exact ⟨hpv2.symm, hre⟩
        rw [← hr2]
        exact hr
      · intro hk
        exact List.mem_map.2 ⟨(t, e.1), hk, rfl⟩
    constructor
    · intro he2
      have hnotdel := ((mem_removeKeys _ _ _ hn).1 he2).2
      rcases List.mem_append.1 (by
        rw [List.take_append_drop]
        exact hmemS :
          (t, e.1) ∈ (sortRecords (agentRecords st agent)).take
            ((sortRecords (agentRecords st agent)).length - keep) ++
          (sortRecords (agentRecords st agent)).drop
            ((sortRecords (agentRecords st agent)).length - keep)) with hin | hin
      · exact absurd (hkey.2 hin) hnotdel
      · exact hin
    · intro hin
      rw [mem_removeKeys _ _ _ hn]
      refine ⟨he, fun hk => ?_⟩
      exact hdisj (t, e.1) (hkey.1 hk) hin

theorem delete_old_metrics_del (st : Store) (agent : Str) (keep : Nat)
    (h : ¬ (sortRecords (agentRecords st agent)).length ≤ keep) :
    (delete_old_records st agent keep).1.metrics = removeKeys st.metrics
      (((sortRecords (agentRecords st agent)).take
        ((sortRecords (agentRecords st agent)).length - keep)).map Prod.snd) := by
  rw [delete_old_records_del st agent keep h]

theorem delete_old_return_del (st : Store) (agent : Str) (keep : Nat)
    (h : ¬ (sortRecords (agentRecords st agent)).length ≤ keep) :
    (delete_old_records st agent keep).2 =
      (((sortRecords (agentRecords st agent)).take
        ((sortRecords (agentRecords st agent)).length - keep)).map Prod.snd).length := by
  rw [delete_old_records_del st agent keep h]

theorem delete_old_latest_del0 (st : Store) (agent : Str)
    (h : ¬ (sortRecords (agentRecords st agent)).length ≤ 0) :
    (delete_old_records st agent 0).1.agent_latest = tblRemove st.agent_latest agent := by
  rw [delete_old_records_del st agent 0 h]
  show (match (if (sortRecords (agentRecords st agent)).length - 0 <
      (sortRecords (agentRecords st agent)).length then
      (sortRecords (agentRecords st agent)).getLast?.map Prod.fst else none) with
    | some ts => tblInsert st.agent_latest agent ts
    | none => tblRemove st.agent_latest agent) = tblRemove st.agent_latest agent
  rw [if_neg (by omega)]

theorem delete_old_latest_del_pos (st : Store) (agent : Str) (keep : Nat)
    (h : ¬ (sortRecords (agentRecords st agent)).length ≤ keep) (hk : 0 < keep)
    (hne : sortRecords (agentRecords st agent) ≠ []) :
    (delete_old_records st agent keep).1.agent_latest =
      tblInsert st.agent_latest agent
        ((sortRecords (agentRecords st agent)).getLast hne).1 := by
  rw [delete_old_records_del st agent keep h]
  show (match (if (sortRecords (agentRecords st agent)).length - keep <
      (sortRecords (agentRecords st agent)).length then
      (sortRecords (agentRecords st agent)).getLast?.map Prod.fst else none) with
    | some ts => tblInsert st.agent_latest agent ts
    | none => tblRemove st.agent_latest agent) = _
  have hlen : 0 < (sortRecords (agentRecords st agent)).length := List.length_pos.2 hne
  rw [if_pos (by omega), List.getLast?_eq_getLast _ hne]
  rfl

theorem delete_old_count (st : Store) (agent : Str) (keep : Nat)
    (hg : GoodStore st) (ha : 0 ∉ agent) :
    (agentRowsOf (delete_old_records st agent keep).1 agent).length =
      min (agentRowsOf st agent).length keep ∨
    ((agentRowsOf st agent).length ≤ keep ∧
      (delete_old_records st agent keep).1 = st) := by
  obtain ⟨hn, hw, hb, hla⟩ := hg
  have hlen := sortRecords_length_eq st agent ⟨hn, hw, hb, hla⟩ ha
  by_cases h : (sortRecords (agentRecords st agent)).length ≤ keep
  · right
    rw [delete_old_records_noop st agent keep h]
    exact ⟨by omega, rfl⟩
  · left
    have hn1 : NodupKeys (delete_old_records st agent keep).1 := by
      rw [show NodupKeys (delete_old_records st agent keep).1 =
          ((delete_old_records st agent keep).1.metrics.map Prod.fst).Nodup from rfl,
        delete_old_metrics_del st agent keep h]
      exact removeKeys_nodup _ _ hn
    have hperm : List.Perm ((agentRowsOf (delete_old_records st agent keep).1 agent).map Prod.fst)
        (((sortRecords (agentRecords st agent)).drop
          ((sortRecords (agentRecords st agent)).length - keep)).map Prod.snd) := by
      apply perm_of_nodup_mem_iff (agentRowsOf_keys_nodup _ agent hn1)
      · rw [List.map_drop]
        exact (sortRecords_keys_nodup st agent hn ha).sublist (List.drop_sublist _ _)
      · intro k
        constructor
        · intro hk
          obtain ⟨e, he, rfl⟩ := List.mem_map.1 hk
          obtain ⟨hm1, hpf⟩ := (mem_agentRowsOf _ agent e).1 he
          obtain ⟨t, hp⟩ := (parse_map_fst_iff e.1 agent).1 hpf
          have hm0 := delete_old_subset st agent keep hn e hm1
          have hin := (delete_old_mem st agent keep ⟨hn, hw, hb, hla⟩ ha e hm0 t hp).1 hm1
          exact List.mem_map.2 ⟨(t, e.1), hin, rfl⟩
        · intro hk
          obtain ⟨r, hr, rfl⟩ := List.mem_map.1 hk
          have hrs : r ∈ sortRecords (agentRecords st agent) :=
            (List.drop_sublist _ _).mem hr
          obtain ⟨v, hmv, hpv⟩ := (mem_sortRecords st agent hw ha r).1 hrs
          have hin := (delete_old_mem st agent keep ⟨hn, hw, hb, hla⟩ ha (r.2, v) hmv r.1
            hpv).2 hr
          refine List.mem_map.2 ⟨(r.2, v), ?_, rfl⟩
          rw [mem_agentRowsOf]
          refine ⟨hin, ?_⟩
          rw [show ((r.2, v) : Str × Sample).1 = r.2 from rfl, hpv]
          rfl
    have hlens := hperm.length_eq
    rw [List.length_map, List.length_map, List.length_drop] at hlens
    rw [hlens]
    omega

theorem delete_old_return (st : Store) (agent : Str) (keep : Nat)
    (hg : GoodStore st) (ha : 0 ∉ agent) :
    (delete_old_records st agent keep).2 =
      (agentRowsOf st agent).length - min (agentRowsOf st agent).length keep := by
  have hlen := sortRecords_length_eq st agent hg ha
  by_cases h : (sortRecords (agentRecords st agent)).length ≤ keep
  · rw [delete_old_records_noop st agent keep h]
    show 0 = _
    omega
  · rw [delete_old_return_del st agent keep h, List.length_map, List.length_take]
    omega

theorem delete_old_sep (st : Store) (agent : Str) (keep : Nat) :
    ∀ x ∈ (sortRecords (agentRecords st agent)).take
        ((sortRecords (agentRecords st agent)).length - keep),
      ∀ y ∈ (sortRecords (agentRecords st agent)).drop
        ((sortRecords (agentRecords st agent)).length - keep), recLeB x y = true := by
  have hs := sortRecords_sorted (agentRecords st agent)
  rw [List.Sorted, ← List.take_append_drop
    ((sortRecords (agentRecords st agent)).length - keep)
    (sortRecords (agentRecords st agent)), List.pairwise_append] at hs
  exact hs.2.2

theorem getLast_mem_drop {α : Type} (l : List α) (d : Nat) (hd : l.drop d ≠ [])
    (hne : l ≠ []) : l.getLast hne ∈ l.drop d := by
  have h1 : l.getLast? = (l.drop d).getLast? := by
    conv_lhs => rw [← List.take_append_drop d l]
    exact List.getLast?_append_of_ne_nil _ hd
  rw [List.getLast?_eq_getLast _ hne, List.getLast?_eq_getLast _ hd] at h1
  injection h1 with h1
  rw [h1]
  exact List.getLast_mem hd

theorem sorted_ts_le_getLast (st : Store) (agent : Str) (hw : WFStore st) (ha : 0 ∉ agent)
    (hne : sortRecords (agentRecords st agent) ≠ [])
    (e : Str × Sample) (he : e ∈ st.metrics) (t : Int)
    (hp : parse_key e.1 = some (agent, t)) :
    t ≤ ((sortRecords (agentRecords st agent)).getLast hne).1 := by
  have hmemS : (t, e.1) ∈ sortRecords (agentRecords st agent) :=
    (mem_sortRecords st agent hw ha (t, e.1)).2 ⟨e.2, he, hp⟩
  exact recLeB_ts_le _ _ (sorted_le_getLast _ (sortRecords_sorted _) _ hmemS hne)

theorem delete_old_rows0 (st : Store) (agent : Str) (hg : GoodStore st) (ha : 0 ∉ agent) :
    agentRowsOf (delete_old_records st agent 0).1 agent = [] := by
  by_cases h : (sortRecords (agentRecords st agent)).length ≤ 0
  · rw [delete_old_records_noop st agent 0 h]
    have hlen := sortRecords_length_eq st agent hg ha
    show agentRowsOf st agent = []
    exact List.eq_nil_of_length_eq_zero (by omega)
  · obtain ⟨hn, hw, hb, hla⟩ := hg
    rw [List.eq_nil_iff_forall_not_mem]
    intro e he
    obtain ⟨hm1, hpf⟩ := (mem_agentRowsOf _ agent e).1 he
    obtain ⟨t, hp⟩ := (parse_map_fst_iff e.1 agent).1 hpf
    have hm0 := delete_old_subset st agent 0 hn e hm1
    have hin := (delete_old_mem st agent 0 ⟨hn, hw, hb, hla⟩ ha e hm0 t hp).1 hm1
    rw [Nat.sub_zero, List.drop_length] at hin
    cases hin

theorem delete_old_latest_exact (st : Store) (agent : Str) (keep : Nat)
    (hg : GoodStore st) (ha : 0 ∉ agent) (hex : LatestExact st agent) :
    LatestExact (delete_old_records st agent keep).1 agent := by
  obtain ⟨hn, hw, hb, hla⟩ := hg
  by_cases h : (sortRecords (agentRecords st agent)).length ≤ keep
  · rw [delete_old_records_noop st agent keep h]
    exact hex
  · rcases Nat.eq_zero_or_pos keep with hk | hk
    · subst hk
      unfold LatestExact
      rw [delete_old_latest_del0 st agent h, tblGet_remove_self _ _ hla.2]
      unfold maxRowTs
      rw [delete_old_rows0 st agent ⟨hn, hw, hb, hla⟩ ha]
      rfl
    · have hne : sortRecords (agentRecords st agent) ≠ [] := by
        intro hc
        rw [hc] at h
        exact h (by simp)
      unfold LatestExact
      rw [delete_old_latest_del_pos st agent keep h hk hne,
        tblGet_insert st.agent_latest agent _ agent, if_pos rfl]
      have hdne : (sortRecords (agentRecords st agent)).drop
          ((sortRecords (agentRecords st agent)).length - keep) ≠ [] := by
        intro hc
        have hcl := congrArg List.length hc
        rw [List.length_drop] at hcl
        simp only [List.length_nil] at hcl
        omega
      have hrd := getLast_mem_drop (sortRecords (agentRecords st agent))
        ((sortRecords (agentRecords st agent)).length - keep) hdne hne
      have hrs : (sortRecords (agentRecords st agent)).getLast hne ∈
          sortRecords (agentRecords st agent) := List.getLast_mem hne
      obtain ⟨sv, hmv, hpv⟩ := (mem_sortRecords st agent hw ha _).1 hrs
      have hin := (delete_old_mem st agent keep ⟨hn, hw, hb, hla⟩ ha
        (((sortRecords (agentRecords st agent)).getLast hne).2, sv) hmv
        ((sortRecords (agentRecords st agent)).getLast hne).1 hpv).2 hrd
      symm
      unfold maxRowTs
      apply rowsMax_eq
      · refine ⟨(((sortRecords (agentRecords st agent)).getLast hne).2, sv), ?_, agent, hpv⟩
        rw [mem_agentRowsOf]
        refine ⟨hin, ?_⟩
        rw [show (((((sortRecords (agentRecords st agent)).getLast hne).2, sv)) :
          Str × Sample).1 = ((sortRecords (agentRecords st agent)).getLast hne).2 from rfl,
          hpv]
        rfl
      · intro e he p hp
        obtain ⟨hm1, hpf⟩ := (mem_agentRowsOf _ agent e).1 he
        obtain ⟨t, hpt⟩ := (parse_map_fst_iff e.1 agent).1 hpf
        rw [hpt] at hp
        injection hp with hp
        subst hp
        exact sorted_ts_le_getLast st agent hw ha hne e
          (delete_old_subset st agent keep hn e hm1) t hpt

theorem delete_old_good (st : Store) (agent : Str) (keep : Nat)
    (hg : GoodStore st) (ha : 0 ∉ agent) :
    GoodStore (delete_old_records st agent keep).1 := by
  obtain ⟨hn, hw, hb, hla⟩ := hg
  by_cases h : (sortRecords (agentRecords st agent)).length ≤ keep
  · rw [delete_old_records_noop st agent keep h]
    exact ⟨hn, hw, hb, hla⟩
  · refine ⟨?_, ?_, ?_, ?_⟩
    · show ((delete_old_records st agent keep).1.metrics.map Prod.fst).Nodup
      rw [delete_old_metrics_del st agent keep h]
      exact removeKeys_nodup _ _ hn
    · intro e he
      exact hw e (delete_old_subset st agent keep hn e he)
    · rcases Nat.eq_zero_or_pos keep with hk | hk
      · subst hk
        intro e he
        rw [rowOkB_iff]
        intro p hp
        by_cases hpa : p.1 = agent
        · exfalso
          have hrows := delete_old_rows0 st agent ⟨hn, hw, hb, hla⟩ ha
          have hme : e ∈ agentRowsOf (delete_old_records st agent 0).1 agent := by
            rw [mem_agentRowsOf]
            exact ⟨he, by rw [hp, Option.map_some', hpa]⟩
          rw [hrows] at hme
          cases hme
        · rw [delete_old_latest_del0 st agent h,
            tblGet_remove_ne _ _ _ (fun hc => hpa hc.symm)]
          exact (rowOkB_iff st.agent_latest e).1
            (hb e (delete_old_subset st agent 0 hn e he)) p hp
      · have hne : sortRecords (agentRecords st agent) ≠ [] := by
          intro hc
          rw [hc] at h
          exact h (by simp)
        intro e he
        rw [rowOkB_iff]
        intro p hp
        rw [delete_old_latest_del_pos st agent keep h hk hne, tblGet_insert]
        by_cases hpa : agent = p.1
        · rw [if_pos hpa]
          refine ⟨_, rfl, ?_⟩
          have hpe : parse_key e.1 = some (agent, p.2) := by
            rw [hp, hpa]
          exact sorted_ts_le_getLast st agent hw ha hne e
            (delete_old_subset st agent keep hn e he) p.2 hpe
        · rw [if_neg hpa]
          exact (rowOkB_iff st.agent_latest e).1
            (hb e (delete_old_subset st agent keep hn e he)) p hp
    · rcases Nat.eq_zero_or_pos keep with hk | hk
      · subst hk
        constructor
        · intro e he
          rw [delete_old_latest_del0 st agent h] at he
          exact hla.1 e (mem_tblRemove_sub _ _ _ he)
        · show (((delete_old_records st agent 0).1.agent_latest).map Prod.fst).Nodup
          rw [delete_old_latest_del0 st agent h]
          exact keys_tblRemove_nodup _ _ hla.2
      · have hne : sortRecords (agentRecords st agent) ≠ [] := by
          intro hc
          rw [hc] at h
          exact h (by simp)
        constructor
        · intro e he
          rw [delete_old_latest_del_pos st agent keep h hk hne] at he
          rcases mem_tblInsert_sub _ _ _ _ he with hh | hh
          · rw [hh]
            exact strContains_eq_false agent 0 ha
          · exact hla.1 e hh
        · show (((delete_old_records st agent keep).1.agent_latest).map Prod.fst).Nodup
          rw [delete_old_latest_del_pos st agent keep h hk hne]
          exact keys_tblInsert_nodup _ _ _ hla.2

/-! ## delete_before_timestamp lemmas -/

theorem maxOptInt_ge (o : Option Int) (ts : Int) :
    ∃ u, maxOptInt o ts = some u ∧ ts ≤ u := by
  cases o with
  | none => exact ⟨ts, rfl, le_refl _⟩
  | some v =>
    rw [maxOptInt_some]
    exact ⟨max v ts, rfl, le_max_right _ _⟩

theorem dbRangeStep_keys_mono (before : Int) (acc : List Str × Option Int)
    (e : Str × Sample) (k : Str) (h : k ∈ acc.1) : k ∈ (dbRangeStep before acc e).1 := by
  cases hp : parse_key e.1 with
  | none =>
    simp only [dbRangeStep, hp]
    exact h
  | some p =>
    by_cases hlt : p.2 < before
    · simp only [dbRangeStep, hp, if_pos hlt]
      exact List.mem_append_left _ h
    · simp only [dbRangeStep, hp, if_neg hlt]
      exact h

theorem dbRangeStep_max_mono (before : Int) (acc : List Str × Option Int)
    (e : Str × Sample) (v : Int) (h : acc.2 = some v) :
    ∃ w, (dbRangeStep before acc e).2 = some w ∧ v ≤ w := by
  cases hp : parse_key e.1 with
  | none =>
    simp only [dbRangeStep, hp]
    exact ⟨v, h, le_refl _⟩
  | some p =>
    by_cases hlt : p.2 < before
    · simp only [dbRangeStep, hp, if_pos hlt]
      exact ⟨v, h, le_refl _⟩
    · simp only [dbRangeStep, hp, if_neg hlt]
      rw [h, maxOptInt_some]
      exact ⟨max v p.2, rfl, le_max_left _ _⟩

theorem dbRange_fold_keys_mono (before : Int) :
    ∀ (rows : List (Str × Sample)) (acc : List Str × Option Int) (k : Str),
      k ∈ acc.1 → k ∈ (rows.foldl (dbRangeStep before) acc).1
  | [], _, _, h => h
  | e :: rows, acc, k, h => by
    rw [List.foldl_cons]
    exact dbRange_fold_keys_mono before rows _ k (dbRangeStep_keys_mono before acc e k h)

theorem dbRange_fold_max_mono (before : Int) :
    ∀ (rows : List (Str × Sample)) (acc : List Str × Option Int) (v : Int),
      acc.2 = some v →
      ∃ w, (rows.foldl (dbRangeStep before) acc).2 = some w ∧ v ≤ w
  | [], _, v, h => ⟨v, h, le_refl _⟩
  | e :: rows, acc, v, h => by
    rw [List.foldl_cons]
    obtain ⟨u, hu, hle⟩ := dbRangeStep_max_mono before acc e v h
    obtain ⟨w, hw2, hle2⟩ := dbRange_fold_max_mono before rows (dbRangeStep before acc e) u hu
    exact ⟨w, hw2, le_trans hle hle2⟩

theorem dbRange_fold_cover (before : Int) :
    ∀ (rows : List (Str × Sample)) (acc : List Str × Option Int),
      ∀ e ∈ rows, ∀ p, parse_key e.1 = some p →
        (p.2 < before → e.1 ∈ (rows.foldl (dbRangeStep before) acc).1) ∧
        (¬ p.2 < before →
          ∃ w, (rows.foldl (dbRangeStep before) acc).2 = some w ∧ p.2 ≤ w)
  | [], _, e, he, p, hp => by cases he
  | f :: rows, acc, e, he, p, hp => by
    rw [List.foldl_cons]
    rcases List.mem_cons.1 he with he | he
    · subst he
      constructor
      · intro hlt
        apply dbRange_fold_keys_mono
        simp only [dbRangeStep, hp, if_pos hlt]
        exact List.mem_append_right _ (List.mem_singleton.2 rfl)
      · intro hge
        obtain ⟨u, hu, hle⟩ := maxOptInt_ge acc.2 p.2
        have hstep : (dbRangeStep before acc e).2 = some u := by
          simp only [dbRangeStep, hp, if_neg hge]
          exact hu
        obtain ⟨w, hw2, hle2⟩ := dbRange_fold_max_mono before rows _ u hstep
        exact ⟨w, hw2, le_trans hle hle2⟩
    · exact dbRange_fold_cover before rows (dbRangeStep before acc f) e he p hp

theorem dbLegacyStep_keys_mono (before : Int) (agent : Str) (acc : List Str × Option Int)
    (e : Str × Sample) (k : Str) (h : k ∈ acc.1) :
    k ∈ (dbLegacyStep before agent acc e).1 := by
  cases hp : parse_key e.1 with
  | none =>
    simp only [dbLegacyStep, hp]
    exact h
  | some p =>
    by_cases hpa : p.1 = agent
    · by_cases hlt : p.2 < before
      · simp only [dbLegacyStep, hp, if_pos hpa, if_pos hlt]
        exact List.mem_append_left _ h
      · simp only [dbLegacyStep, hp, if_pos hpa, if_neg hlt]
        exact h
    · simp only [dbLegacyStep, hp, if_neg hpa]
      exact h

theorem dbLegacyStep_max_mono (before : Int) (agent : Str) (acc : List Str × Option Int)
    (e : Str × Sample) (v : Int) (h : acc.2 = some v) :
    ∃ w, (dbLegacyStep before agent acc e).2 = some w ∧ v ≤ w := by
  cases hp : parse_key e.1 with
  | none =>
    simp only [dbLegacyStep, hp]
    exact ⟨v, h, le_refl _⟩
  | some p =>
    by_cases hpa : p.1 = agent
    · by_cases hlt : p.2 < before
      · simp only [dbLegacyStep, hp, if_pos hpa, if_pos hlt]
        exact ⟨v, h, le_refl _⟩
      · simp only [dbLegacyStep, hp, if_pos hpa, if_neg hlt]
        rw [h, maxOptInt_some]
        exact ⟨max v p.2, rfl, le_max_left _ _⟩
    · simp only [dbLegacyStep, hp, if_neg hpa]
      exact ⟨v, h, le_refl _⟩

theorem dbLegacy_fold_keys_mono (before : Int) (agent : Str) :
    ∀ (rows : List (Str × Sample)) (acc : List Str × Option Int) (k : Str),
      k ∈ acc.1 → k ∈ (rows.foldl (dbLegacyStep before agent) acc).1
  | [], _, _, h => h
  | e :: rows, acc, k, h => by
    rw [List.foldl_cons]
    exact dbLegacy_fold_keys_mono before agent rows _ k
      (dbLegacyStep_keys_mono before agent acc e k h)

theorem dbLegacy_fold_max_mono (before : Int) (agent : Str) :
    ∀ (rows : List (Str × Sample)) (acc : List Str × Option Int) (v : Int),
      acc.2 = some v →
      ∃ w, (rows.foldl (dbLegacyStep before agent) acc).2 = some w ∧ v ≤ w
  | [], _, v, h => ⟨v, h, le_refl _⟩
  | e :: rows, acc, v, h => by
    rw [List.foldl_cons]
    obtain ⟨u, hu, hle⟩ := dbLegacyStep_max_mono before agent acc e v h
    obtain ⟨w, hw2, hle2⟩ :=
      dbLegacy_fold_max_mono before agent rows (dbLegacyStep before agent acc e) u hu
    exact ⟨w, hw2, le_trans hle hle2⟩

theorem dbLegacy_fold_cover (before : Int) (agent : Str) :
    ∀ (rows : List (Str × Sample)) (acc : List Str × Option Int),
      ∀ e ∈ rows, ∀ p, parse_key e.1 = some p → p.1 = agent →
        (p.2 < before → e.1 ∈ (rows.foldl (dbLegacyStep before agent) acc).1) ∧
        (¬ p.2 < before →
          ∃ w, (rows.foldl (dbLegacyStep before agent) acc).2 = some w ∧ p.2 ≤ w)
  | [], _, e, he, p, hp, hpa => by cases he
  | f :: rows, acc, e, he, p, hp, hpa => by
    rw [List.foldl_cons]
    rcases List.mem_cons.1 he with he | he
    · subst he
      constructor
      · intro hlt
        apply dbLegacy_fold_keys_mono
        simp only [dbLegacyStep, hp, if_pos hpa, if_pos hlt]
        exact List.mem_append_right _ (List.mem_singleton.2 rfl)
      · intro hge
        obtain ⟨u, hu, hle⟩ := maxOptInt_ge acc.2 p.2
        have hstep : (dbLegacyStep before agent acc e).2 = some u := by
          simp only [dbLegacyStep, hp, if_pos hpa, if_neg hge]
          exact hu
        obtain ⟨w, hw2, hle2⟩ := dbLegacy_fold_max_mono before agent rows _ u hstep
        exact ⟨w, hw2, le_trans hle hle2⟩
    · exact dbLegacy_fold_cover before agent rows (dbLegacyStep before agent acc f) e he p hp hpa

theorem dbScan_eq (before : Int) (st : Store) (agent : Str) :
    dbScan before st agent =
      (st.metrics.filter fun f => !strContains f.1 0).foldl (dbLegacyStep before agent)
        ((st.metrics.filter fun f => inRangeB agent f.1).foldl
          (dbRangeStep before) ([], none)) := rfl

theorem dbScan_cover (before : Int) (st : Store) (agent : Str)
    (hw : WFStore st) (ha : 0 ∉ agent) (e : Str × Sample) (he : e ∈ st.metrics)
    (t : Int) (hp : parse_key e.1 = some (agent, t)) :
    (t < before → e.1 ∈ (dbScan before st agent).1) ∧
    (¬ t < before → ∃ w, (dbScan before st agent).2 = some w ∧ t ≤ w) := by
  rw [dbScan_eq]
  cases hleg : strContains e.1 0 with
  | true =>
    have hir : inRangeB agent e.1 = true :=
      wf_parse_in_range agent e.1 t ha (hw e he) hleg hp
    have hmem : e ∈ st.metrics.filter fun f => inRangeB agent f.1 :=
      List.mem_filter.2 ⟨he, hir⟩
    have hcov := dbRange_fold_cover before
      (st.metrics.filter fun f => inRangeB agent f.1) ([], none) e hmem (agent, t) hp
    constructor
    · intro hlt
      exact dbLegacy_fold_keys_mono before agent _ _ e.1 (hcov.1 hlt)
    · intro hge
      obtain ⟨w, hw0, hle⟩ := hcov.2 hge
      obtain ⟨w2, hw2, hle2⟩ := dbLegacy_fold_max_mono before agent _ _ w hw0
      exact ⟨w2, hw2, le_trans hle hle2⟩
  | false =>
    have hmem : e ∈ st.metrics.filter fun f => !strContains f.1 0 :=
      List.mem_filter.2 ⟨he, by rw [hleg]; rfl⟩
    exact dbLegacy_fold_cover before agent _ _ e hmem (agent, t) hp rfl

theorem deleteBeforeAgent_metrics (before : Int) (st : Store) (agent : Str) :
    (deleteBeforeAgent before st agent).1.metrics =
      removeKeys st.metrics (dbScan before st agent).1 := rfl

theorem deleteBeforeAgent_latest (before : Int) (st : Store) (agent : Str) :
    (deleteBeforeAgent before st agent).1.agent_latest =
      match (dbScan before st agent).2 with
      | some ts => tblInsert st.agent_latest agent ts
      | none => tblRemove st.agent_latest agent := rfl

theorem deleteBeforeAgent_good (before : Int) (st : Store) (agent : Str)
    (hg : GoodStore st) (ha : 0 ∉ agent) :
    GoodStore (deleteBeforeAgent before st agent).1 := by
  obtain ⟨hn, hw, hb, hla⟩ := hg
  have hsplit : ((dbScan before st agent).2 = none ∧
      (deleteBeforeAgent before st agent).1.agent_latest =
        tblRemove st.agent_latest agent) ∨
      ∃ w, (dbScan before st agent).2 = some w ∧
        (deleteBeforeAgent before st agent).1.agent_latest =
          tblInsert st.agent_latest agent w := by
    rw [deleteBeforeAgent_latest]
    cases hs : (dbScan before st agent).2 with
    | some w => exact Or.inr ⟨w, rfl, rfl⟩
    | none => exact Or.inl ⟨rfl, rfl⟩
  refine ⟨?_, ?_, ?_, ?_⟩
  · show (((deleteBeforeAgent before st agent).1.metrics).map Prod.fst).Nodup
    rw [deleteBeforeAgent_metrics]
    exact removeKeys_nodup _ _ hn
  · intro e he
    rw [deleteBeforeAgent_metrics] at he
    exact hw e ((mem_removeKeys _ _ _ hn).1 he).1
  · intro e he
    rw [deleteBeforeAgent_metrics] at he
    obtain ⟨he0, hkn⟩ := (mem_removeKeys _ _ _ hn).1 he
    rw [rowOkB_iff]
    intro p hp
    by_cases hpa : p.1 = agent
    · have hpe : parse_key e.1 = some (agent, p.2) := by rw [hp, ← hpa]
      have hcov := dbScan_cover before st agent hw ha e he0 p.2 hpe
      by_cases hlt : p.2 < before
      · exact absurd (hcov.1 hlt) hkn
      · obtain ⟨w, hw2, hle⟩ := hcov.2 hlt
        rcases hsplit with ⟨hnone, _⟩ | ⟨w2, hsome, hlat⟩
        · rw [hnone] at hw2
          cases hw2
        · rw [hsome] at hw2
          injection hw2 with hw2
          subst hw2
          rw [hlat, tblGet_insert, if_pos hpa.symm]
          exact ⟨_, rfl, hle⟩
    · obtain ⟨v, hv, hpv⟩ := (rowOkB_iff _ _).1 (hb e he0) p hp
      refine ⟨v, ?_, hpv⟩
      rcases hsplit with ⟨_, hlat⟩ | ⟨w2, _, hlat⟩
      · rw [hlat, tblGet_remove_ne _ _ _ (fun hc => hpa hc.symm)]
        exact hv
      · rw [hlat, tblGet_insert, if_neg (fun hc => hpa hc.symm)]
        exact hv
  · unfold LatestAgentsOk
    rcases hsplit with ⟨_, hlat⟩ | ⟨w2, _, hlat⟩ <;> rw [hlat]
    · exact ⟨fun f hf => hla.1 f (mem_tblRemove_sub _ _ _ hf),
        keys_tblRemove_nodup _ _ hla.2⟩
    · refine ⟨fun f hf => ?_, keys_tblInsert_nodup _ _ _ hla.2⟩
      rcases mem_tblInsert_sub _ _ _ _ hf with hf | hf
      · rw [hf]
        exact strContains_eq_false agent 0 ha
      · exact hla.1 f hf

theorem deleteBeforeAgent_removes (before : Int) (st : Store) (agent : Str)
    (hg : GoodStore st) (ha : 0 ∉ agent) (e : Str × Sample) (t : Int)
    (hp : parse_key e.1 = some (agent, t)) (hlt : t < before) :
    e ∉ (deleteBeforeAgent before st agent).1.metrics := by
  intro hmem
  rw [deleteBeforeAgent_metrics] at hmem
  obtain ⟨he0, hkn⟩ := (mem_removeKeys _ _ _ hg.1).1 hmem
  exact hkn ((dbScan_cover before st agent hg.2.1 ha e he0 t hp).1 hlt)

theorem deleteBeforeAgent_metrics_sub (before : Int) (st : Store) (agent : Str)
    (hn : NodupKeys st) (e : Str × Sample)
    (he : e ∈ (deleteBeforeAgent before st agent).1.metrics) : e ∈ st.metrics := by
  rw [deleteBeforeAgent_metrics] at he
  exact ((mem_removeKeys _ _ _ hn).1 he).1

theorem delete_before_fold_good (before : Int) :
    ∀ (as : List Str) (acc : Store × Nat), GoodStore acc.1 → (∀ a ∈ as, 0 ∉ a) →
      GoodStore ((as.foldl (fun acc a =>
        let r := deleteBeforeAgent before acc.1 a
        (r.1, acc.2 + r.2)) acc).1)
  | [], _, hg, _ => hg
  | a :: as, acc, hg, hok => by
    rw [List.foldl_cons]
    exact delete_before_fold_good before as _
      (deleteBeforeAgent_good before acc.1 a hg (hok a (List.mem_cons_self _ _)))
      fun x hx => hok x (List.mem_cons_of_mem _ hx)

theorem latest_agents_no_zero (st : Store) (hg : GoodStore st) :
    ∀ a ∈ st.agent_latest.map Prod.fst, 0 ∉ a := by
  intro a hamem hz
  obtain ⟨f, hf, hfe⟩ := List.mem_map.1 hamem
  have hc := hg.2.2.2.1 f hf
  rw [hfe, (strContains_iff a 0).2 hz] at hc
  cases hc

theorem delete_before_good (st : Store) (before : Int) (hg : GoodStore st) :
    GoodStore (delete_before_timestamp st before).1 :=
  delete_before_fold_good before (st.agent_latest.map Prod.fst) (st, 0) hg
    (latest_agents_no_zero st hg)

theorem delete_before_fold_not_mem (before : Int) (agent : Str) (e : Str × Sample)
    (t : Int) (hp : parse_key e.1 = some (agent, t)) (hlt : t < before)
    (ha : 0 ∉ agent) :
    ∀ (as : List Str) (acc : Store × Nat), GoodStore acc.1 → (∀ a ∈ as, 0 ∉ a) →
      (agent ∈ as ∨ e ∉ acc.1.metrics) →
      e ∉ ((as.foldl (fun acc a =>
        let r := deleteBeforeAgent before acc.1 a
        (r.1, acc.2 + r.2)) acc).1).metrics
  | [], acc, _, _, hcase => by
    rcases hcase with hin | hout
    · cases hin
    · exact hout
  | a :: as, acc, hg, hok, hcase => by
    rw [List.foldl_cons]
    refine delete_before_fold_not_mem before agent e t hp hlt ha as _
      (deleteBeforeAgent_good before acc.1 a hg (hok a (List.mem_cons_self _ _)))
      (fun x hx => hok x (List.mem_cons_of_mem _ hx)) ?_
    rcases hcase with hin | hout
    · rcases List.mem_cons.1 hin with heq | hin2
      · right
        exact deleteBeforeAgent_removes before acc.1 a hg (heq ▸ ha) e t (heq ▸ hp) hlt
      · left
        exact hin2
    · right
      intro hmem
      exact hout (deleteBeforeAgent_metrics_sub before acc.1 a hg.1 e hmem)

theorem delete_before_not_mem (st : Store) (before : Int) (agent : Str)
    (e : Str × Sample) (t : Int) (hg : GoodStore st)
    (hp : parse_key e.1 = some (agent, t)) (hlt : t < before)
    (hag : agent ∈ st.agent_latest.map Prod.fst) :
    e ∉ (delete_before_timestamp st before).1.metrics :=
  delete_before_fold_not_mem before agent e t hp hlt
    (latest_agents_no_zero st hg agent hag)
    (st.agent_latest.map Prod.fst) (st, 0) hg (latest_agents_no_zero st hg)
    (Or.inl hag)

/-! ## Query coverage lemmas -/

theorem parse_key_bounds (k a : Str) (t : Int) (h : parse_key k = some (a, t)) :
    minI64 ≤ t ∧ t ≤ (maxI64 : Int) := by
  rw [parse_key] at h
  split at h
  · split at h
    · rename_i t2 hpi
      injection h with h
      injection h with h1 h2
      subst h2
      exact parseI64_bounds _ _ hpi
    · cases h
  · split at h
    · split at h
      · rename_i t2 hpi
        injection h with h
        injection h with h1 h2
        subst h2
        exact parseI64_bounds _ _ hpi
      · cases h
    · cases h

theorem latestScanStep_isSome (agent : Str) (s : Sample) (e : Str × Sample) :
    ∃ s2, latestScanStep agent (some s) e = some s2 := by
  cases hp : parse_key e.1 with
  | none =>
    simp only [latestScanStep, hp]
    exact ⟨s, rfl⟩
  | some p =>
    by_cases hpa : p.1 = agent
    · by_cases hle : ((some s).map Sample.timestamp).getD minI64 ≤ p.2
      · simp only [latestScanStep, hp, if_pos hpa, if_pos hle]
        exact ⟨e.2, rfl⟩
      · simp only [latestScanStep, hp, if_pos hpa, if_neg hle]
        exact ⟨s, rfl⟩
    · simp only [latestScanStep, hp, if_neg hpa]
      exact ⟨s, rfl⟩

theorem latestScan_fold_isSome (agent : Str) :
    ∀ (rows : List (Str × Sample)) (acc : Option Sample) (s : Sample), acc = some s →
      ∃ s2, rows.foldl (latestScanStep agent) acc = some s2
  | [], acc, s, h => ⟨s, h⟩
  | e :: rows, acc, s, h => by
    rw [List.foldl_cons]
    subst h
    obtain ⟨s2, hs2⟩ := latestScanStep_isSome agent s e
    exact latestScan_fold_isSome agent rows _ s2 hs2

theorem latestScanStep_hit (agent : Str) (acc : Option Sample) (e : Str × Sample)
    (t : Int) (hp : parse_key e.1 = some (agent, t)) (hb : minI64 ≤ t) :
    ∃ s2, latestScanStep agent acc e = some s2 := by
  cases acc with
  | some s => exact latestScanStep_isSome agent s e
  | none =>
    have hle : (((none : Option Sample)).map Sample.timestamp).getD minI64 ≤
        ((agent, t) : Str × Int).2 := hb
    simp only [latestScanStep, hp, if_pos rfl, if_pos hle]
    exact ⟨e.2, rfl⟩

theorem latestScan_fold_hit (agent : Str) :
    ∀ (rows : List (Str × Sample)) (acc : Option Sample),
      ∀ e ∈ rows, ∀ t, parse_key e.1 = some (agent, t) → minI64 ≤ t →
        ∃ s2, rows.foldl (latestScanStep agent) acc = some s2
  | [], _, e, he, t, _, _ => by cases he
  | f :: rows, acc, e, he, t, hp, hb => by
    rw [List.foldl_cons]
    rcases List.mem_cons.1 he with he | he
    · subst he
      obtain ⟨s2, hs2⟩ := latestScanStep_hit agent acc e t hp hb
      exact latestScan_fold_isSome agent rows _ s2 hs2
    · exact latestScan_fold_hit agent rows _ e he t hp hb

theorem get_latest_metrics_eq (st : Store) (agent : Str) :
    get_latest_metrics st agent =
      (st.metrics.filter fun f => !strContains f.1 0).foldl (latestScanStep agent)
        ((st.metrics.filter fun f => inRangeB agent f.1).foldl
          (latestScanStep agent) none) := rfl

theorem get_latest_metrics_legacy_some (st : Store) (agent : Str) (e : Str × Sample)
    (he : e ∈ st.metrics) (hleg : strContains e.1 0 = false) (t : Int)
    (hp : parse_key e.1 = some (agent, t)) :
    ∃ s, get_latest_metrics st agent = some s := by
  rw [get_latest_metrics_eq]
  have hmem : e ∈ st.metrics.filter fun f => !strContains f.1 0 :=
    List.mem_filter.2 ⟨he, by rw [hleg]; rfl⟩
  exact latestScan_fold_hit agent _ _ e hmem t hp (parse_key_bounds e.1 agent t hp).1

theorem rowsForAgent_mem (agent : Str) (rows : List (Str × Sample)) (e : Str × Sample)
    (he : e ∈ rows) (t : Int) (hp : parse_key e.1 = some (agent, t)) :
    e.2 ∈ rowsForAgent agent rows := by
  rw [rowsForAgent, List.mem_filterMap]
  refine ⟨e, he, ?_⟩
  simp [hp]

theorem sortByTs_perm (l : List Sample) : List.Perm (sortByTs l) l :=
  List.perm_insertionSort _ l

theorem query_latest_eq_sorted (st : Store) (agent : Str) (limit : Nat)
    (h0 : ¬ limit = 0)
    (hlen : ¬ limit < (sortByTs
        (rowsForAgent agent (st.metrics.filter fun f => inRangeB agent f.1) ++
          rowsForAgent agent (st.metrics.filter fun f => !strContains f.1 0))).length) :
    query_latest_by_agent st agent limit =
      sortByTs (rowsForAgent agent (st.metrics.filter fun f => inRangeB agent f.1) ++
        rowsForAgent agent (st.metrics.filter fun f => !strContains f.1 0)) := by
  simp only [query_latest_by_agent]
  rw [if_neg h0, if_neg hlen]

theorem query_latest_legacy_mem (st : Store) (agent : Str) (limit : Nat)
    (e : Str × Sample) (he : e ∈ st.metrics) (hleg : strContains e.1 0 = false)
    (t : Int) (hp : parse_key e.1 = some (agent, t)) (h0 : ¬ limit = 0)
    (hlen : ¬ limit < (sortByTs
        (rowsForAgent agent (st.metrics.filter fun f => inRangeB agent f.1) ++
          rowsForAgent agent (st.metrics.filter fun f => !strContains f.1 0))).length) :
    e.2 ∈ query_latest_by_agent st agent limit := by
  rw [query_latest_eq_sorted st agent limit h0 hlen]
  have hmem : e ∈ st.metrics.filter fun f => !strContains f.1 0 :=
    List.mem_filter.2 ⟨he, by rw [hleg]; rfl⟩
  have h1 : e.2 ∈ rowsForAgent agent (st.metrics.filter fun f => !strContains f.1 0) :=
    rowsForAgent_mem agent _ e hmem t hp
  exact (sortByTs_perm _).mem_iff.2 (List.mem_append_right _ h1)

theorem delete_old_removes_all (st : Store) (agent : Str) (hg : GoodStore st)
    (ha : 0 ∉ agent) (e : Str × Sample) (t : Int)
    (hp : parse_key e.1 = some (agent, t)) :
    e ∉ (delete_old_records st agent 0).1.metrics := by
  intro hmem
  have hme : e ∈ agentRowsOf (delete_old_records st agent 0).1 agent := by
    rw [mem_agentRowsOf]
    exact ⟨hmem, by rw [hp]; rfl⟩
  rw [delete_old_rows0 st agent hg ha] at hme
  cases hme

theorem delete_old_count_min (st : Store) (agent : Str) (keep : Nat)
    (hg : GoodStore st) (ha : 0 ∉ agent) :
    (agentRowsOf (delete_old_records st agent keep).1 agent).length =
      min (agentRowsOf st agent).length keep := by
  rcases delete_old_count st agent keep hg ha with h | ⟨hle, heq⟩
  · exact h
  · rw [heq]
    omega

theorem parse_key_legacy_split (k a : Str) (t : Int) (hleg : strContains k 0 = false)
    (h : parse_key k = some (a, t)) :
    ∃ suf, rsplitOnce 58 k = some (a, suf) ∧ parseI64 suf = some t := by
  have hz : (0 : Nat) ∉ k := fun hm => by
    rw [(strContains_iff k 0).2 hm] at hleg
    cases hleg
  rw [parse_key] at h
  split at h
  · rename_i p hsp
    obtain ⟨hs, _⟩ := splitAtFirst_eq_some_spec 0 k p.1 p.2 (by rw [hsp])
    exact absurd (by rw [hs]; simp : (0 : Nat) ∈ k) hz
  · split at h
    · rename_i p hrs
      split at h
      · rename_i t2 hpi
        injection h with h
        injection h with h1 h2
        refine ⟨p.2, ?_, ?_⟩
        · rw [hrs, ← h1]
        · rw [hpi, h2]
      · cases h
    · cases h

theorem int_compare_toNat (t1 t2 : Int) (h1 : 0 ≤ t1) (h2 : 0 ≤ t2) :
    compare t1.toNat t2.toNat = compare t1 t2 := by
  rcases lt_trichotomy t1 t2 with h | h | h
  · rw [compare_lt_iff_lt.2 h, compare_lt_iff_lt.2 (by omega : t1.toNat < t2.toNat)]
  · subst h
    rw [compare_eq_iff_eq.2 rfl, compare_eq_iff_eq.2 rfl]
  · rw [compare_gt_iff_gt.2 h, compare_gt_iff_gt.2 (by omega : t2.toNat < t1.toNat)]

theorem fmtTs_nonneg (t : Int) (h : 0 ≤ t) : fmtTs t = padDec 20 t.toNat := by
  rw [fmtTs, if_neg (by omega : ¬ t < 0)]

theorem toNat_lt_pow20 (t : Int) (hm : t ≤ (maxI64 : Int)) : t.toNat < 10 ^ 20 := by
  have h19 := maxI64_lt_pow19
  have h20 : (10 : Nat) ^ 19 < 10 ^ 20 := by norm_num
  rw [maxI64] at hm h19
  omega

theorem make_key_order (a : Str) (t1 t2 : Int) (n1 n2 s1 s2 : Nat)
    (h10 : 0 ≤ t1) (h1m : t1 ≤ (maxI64 : Int)) (h20 : 0 ≤ t2) (h2m : t2 ≤ (maxI64 : Int))
    (hn1 : n1 < 16 ^ 32) (hn2 : n2 < 16 ^ 32) (hs1 : s1 < 16 ^ 16) (hs2 : s2 < 16 ^ 16) :
    lexCompare (make_key a t1 n1 s1) (make_key a t2 n2 s2) =
      (compare t1 t2).then ((compare n1 n2).then (compare s1 s2)) := by
  rw [make_key, make_key,
    show a ++ 0 :: (fmtTs t1 ++ 0 :: (padHex 32 n1 ++ padHex 16 s1)) =
      (a ++ [0]) ++ (fmtTs t1 ++ 0 :: (padHex 32 n1 ++ padHex 16 s1)) by simp,
    show a ++ 0 :: (fmtTs t2 ++ 0 :: (padHex 32 n2 ++ padHex 16 s2)) =
      (a ++ [0]) ++ (fmtTs t2 ++ 0 :: (padHex 32 n2 ++ padHex 16 s2)) by simp,
    lexCompare_append_left,
    lexCompare_append_congr (fmtTs t1) (fmtTs t2) _ _
      (by rw [fmtTs_length, fmtTs_length]),
    lexCompare_cons, compare_eq_iff_eq.2 (rfl : (0 : Nat) = 0), ordering_eq_then,
    lexCompare_append_congr (padHex 32 n1) (padHex 32 n2) _ _
      (by rw [padHex, padHex, padBase_length, padBase_length]),
    lexCompare_padHex 32 n1 n2 hn1 hn2, lexCompare_padHex 16 s1 s2 hs1 hs2,
    fmtTs_nonneg t1 h10, fmtTs_nonneg t2 h20,
    lexCompare_padDec 20 t1.toNat t2.toNat (toNat_lt_pow20 t1 h1m) (toNat_lt_pow20 t2 h2m),
    int_compare_toNat t1 t2 h10 h20]

theorem make_key_range_unique (a b : Str) (t : Int) (n s : Nat) (ha : 0 ∉ a)
    (hb : 0 ∉ b) (h : inRangeB a (make_key b t n s) = true) : b = a := by
  rw [make_key] at h
  exact inRangeB_agent_unique a b _ ha hb h

theorem cacheGetHistory_zero (deque : List Sample) : cacheGetHistory deque 0 = [] := by
  rw [cacheGetHistory]
  by_cases h : 0 < deque.length
  · rw [if_pos h, Nat.sub_zero, List.drop_length]
  · rw [if_neg h]
    exact List.eq_nil_of_length_eq_zero (by omega)

/-! ## Claim theorems -/

/-- C1 counterexample: with one buffered sample and one pending
acknowledgment, a failed commit delivers no ack messages at all — the
pending acknowledgment does not receive the error — while the writer state
(buffer and acks) is retained unchanged. -/
theorem C1_counterexample :
    (flush_buffer (.error [101]) ⟨[⟨[97], 1, []⟩], [7]⟩).2.1 = [] ∧
    (flush_buffer (.error [101]) ⟨[⟨[97], 1, []⟩], [7]⟩).1 =
      (⟨[⟨[97], 1, []⟩], [7]⟩ : WriterState) ∧
    (⟨[⟨[97], 1, []⟩], [7]⟩ : WriterState).pendingAcks ≠ [] :=
  ⟨rfl, rfl, by decide⟩

/-- C1 (corrected): when the commit of a non-empty buffered batch fails,
`flush_buffer` retains both the buffer and the pending acknowledgments and
delivers nothing — the error reaches the pending acks only at shutdown,
through the batch writer's final flush; when the commit succeeds, every
pending ack receives `Ok` and the buffer is cleared. -/
theorem C1_flush_buffer (ws : WriterState) (emsg : Str)
    (hne : ¬ ws.buffer.isEmpty = true) :
    flush_buffer (.error emsg) ws = (ws, [], false) ∧
    flush_buffer (.ok ()) ws =
      (⟨[], []⟩, ws.pendingAcks.map fun a => (a, .ok ()), true) ∧
    writer_final_flush (.error emsg) ws =
      ws.pendingAcks.map fun a => (a, .error stoppedMsg) := by
  have hr : flush_buffer (.error emsg) ws = (ws, [], false) := by
    rw [flush_buffer, if_neg hne]
  refine ⟨hr, ?_, ?_⟩
  · rw [flush_buffer, if_neg hne]
  · rw [writer_final_flush, if_neg hne, hr]
    show ([] : List (Nat × Except Str Unit)) ++
      ws.pendingAcks.map (fun a => (a, .error stoppedMsg)) = _
    rw [List.nil_append]

/-- C1 witness: the amended statement applied to a concrete one-sample
writer state. -/
theorem C1_witness :
    (¬ ((⟨[⟨[97], 1, []⟩], [7]⟩ : WriterState)).buffer.isEmpty = true) ∧
    flush_buffer (.ok ()) ⟨[⟨[97], 1, []⟩], [7]⟩ = (⟨[], []⟩, [(7, .ok ())], true) :=
  ⟨by decide, (C1_flush_buffer ⟨[⟨[97], 1, []⟩], [7]⟩ [101] (by decide)).2.1⟩

/-- C2 counterexample: with a full write channel (capacity 0),
`save_metrics` (`save_async`) still enqueues the request — the sample's
persistence is not dropped, contrary to the claim. -/
theorem C2_counterexample :
    channelFull ⟨0, []⟩ ∧
    (save_metrics ⟨true, some ⟨0, []⟩, true, false, none⟩ 10 []
        ⟨[97], 1, []⟩).1.writeTx = some ⟨0, [⟨⟨[97], 1, []⟩, none⟩]⟩ :=
  ⟨by decide, rfl⟩

/-- C2 (corrected): both `save_metrics` (`save_async`) and
`save_metrics_sync` (`save_sync`) enqueue through the awaiting `send`, so
even on a full channel the request is appended to the queue and the sample
is never dropped; the async path does not drop with a warning. -/
theorem C2_enqueue (stg : StorageState) (ch : Channel) (m : Sample)
    (maxSize : Nat) (deque : List Sample) (ackId : Nat)
    (hch : stg.writeTx = some ch) (hfull : channelFull ch) :
    (save_metrics stg maxSize deque m).1.writeTx =
      some (channelSend ch ⟨m, none⟩) ∧
    (save_metrics_sync stg maxSize deque m ackId).1.writeTx =
      some (channelSend ch ⟨m, some ackId⟩) ∧
    (save_metrics_sync stg maxSize deque m ackId).2.2 = true ∧
    (channelSend ch ⟨m, none⟩).queue.length = ch.queue.length + 1 := by
  refine ⟨?_, ?_, ?_, ?_⟩
  · show (enqueue_metrics stg.persistEnabled stg.writeTx m false 0).1 = _
    rw [hch]
    rfl
  · show (enqueue_metrics stg.persistEnabled stg.writeTx m true ackId).1 = _
    rw [hch]
    rfl
  · show (enqueue_metrics stg.persistEnabled stg.writeTx m true ackId).2 = true
    rw [hch]
    rfl
  · show (ch.queue ++ [({ metrics := m, ack := none } : WriteRequest)]).length =
      ch.queue.length + 1
    simp

/-- C2 witness: the amended statement applied to a full concrete channel. -/
theorem C2_witness :
    (⟨true, some ⟨0, []⟩, true, false, none⟩ : StorageState).writeTx =
      some (⟨0, []⟩ : Channel) ∧
    channelFull ⟨0, []⟩ ∧
    (save_metrics_sync ⟨true, some ⟨0, []⟩, true, false, none⟩ 10 []
        ⟨[97], 1, []⟩ 3).2.2 = true :=
  ⟨rfl, by decide,
    (C2_enqueue ⟨true, some ⟨0, []⟩, true, false, none⟩ ⟨0, []⟩ ⟨[97], 1, []⟩
      10 [] 3 rfl (by decide)).2.2.1⟩

/-- C3: `flush_batch` returns the store unchanged on an empty batch; on a
batch with fresh generated keys it appends exactly one `metrics` row per
sample, and for every agent it leaves `agent_latest` at the maximum of the
stored value and the batch's maximum timestamp for that agent — so the
entry changes only when the batch holds a strictly greater timestamp, and
is created when absent. -/
theorem C3_flush_batch (now : Nat) (st : Store) (ms : List Sample)
    (hf : ∀ k ∈ batchKeys now st.keySeq ms, k ∉ st.metrics.map Prod.fst)
    (hseq : st.keySeq + ms.length ≤ 16 ^ 16) :
    flush_batch now st [] = st ∧
    (flush_batch now st ms).metrics = st.metrics ++ newRows now st.keySeq ms ∧
    (newRows now st.keySeq ms).length = ms.length ∧
    ∀ agent, tblGet (flush_batch now st ms).agent_latest agent =
      optMax2 (tblGet st.agent_latest agent) (batchMaxTs agent ms) :=
  ⟨flush_batch_nil now st,
   flush_batch_metrics now st ms hf (batchKeys_nodup now ms st.keySeq hseq),
   newRows_length now ms st.keySeq,
   fun agent => flush_batch_latest now st ms agent⟩

/-- C3 witness: the statement applied to the empty store and a concrete
one-sample batch. -/
theorem C3_witness :
    (∀ k ∈ batchKeys 0 (Store.keySeq ⟨[], [], 0⟩) [⟨[97], 5, []⟩],
      k ∉ (Store.metrics ⟨[], [], 0⟩).map Prod.fst) ∧
    (Store.keySeq ⟨[], [], 0⟩ + 1 ≤ 16 ^ 16) ∧
    (flush_batch 0 ⟨[], [], 0⟩ [⟨[97], 5, []⟩]).metrics =
      Store.metrics ⟨[], [], 0⟩ ++ newRows 0 (Store.keySeq ⟨[], [], 0⟩) [⟨[97], 5, []⟩] :=
  ⟨by decide, by decide,
    (C3_flush_batch 0 ⟨[], [], 0⟩ [⟨[97], 5, []⟩] (by decide) (by decide)).2.1⟩

/-- C4: invariant I1 — every `metrics` row has an `agent_latest` entry for
its parsed agent holding a timestamp at least the row's — holds in every
good store and is preserved by `flush_batch` (for well-formed input
samples), by `delete_old_records`, and by `delete_before_timestamp`. -/
theorem C4_latest_bound (st : Store) (hg : GoodStore st) :
    LatestBound st ∧
    (∀ now ms, (∀ m ∈ ms, SampleOk m) → LatestBound (flush_batch now st ms)) ∧
    (∀ agent keep, 0 ∉ agent → LatestBound (delete_old_records st agent keep).1) ∧
    (∀ before, LatestBound (delete_before_timestamp st before).1) :=
  ⟨hg.2.2.1,
   fun now ms hok => (flush_batch_good now st ms hg hok).2.2.1,
   fun agent keep ha => (delete_old_good st agent keep hg ha).2.2.1,
   fun before => (delete_before_good st before hg).2.2.1⟩

/-- C4 witness: the statement applied to the empty store and a concrete
flush. -/
theorem C4_witness :
    GoodStore ⟨[], [], 0⟩ ∧ (∀ m ∈ [(⟨[97], 5, []⟩ : Sample)], SampleOk m) ∧
    LatestBound (flush_batch 0 ⟨[], [], 0⟩ [⟨[97], 5, []⟩]) :=
  ⟨by decide, by decide,
    (C4_latest_bound ⟨[], [], 0⟩ (by decide)).2.1 0 [⟨[97], 5, []⟩] (by decide)⟩

/-- C5: after `delete_old_records agent keep` the number of rows remaining
for the agent equals `min(prior count, keep)`; a prior row of the agent
survives exactly when its `(timestamp, key)` record lies in the kept suffix
of the `(ts, key)`-sorted record list — and every deleted record is `≤`
every kept one in that order, so the kept rows are the greatest; the
`agent_latest` entry again equals the maximum remaining timestamp (the
entry is removed when no rows remain); and the returned value is the number
of rows deleted. -/
theorem C5_delete_old (st : Store) (agent : Str) (keep : Nat)
    (hg : GoodStore st) (ha : 0 ∉ agent) (hex : LatestExact st agent) :
    (agentRowsOf (delete_old_records st agent keep).1 agent).length =
      min (agentRowsOf st agent).length keep ∧
    (∀ e ∈ st.metrics, ∀ t, parse_key e.1 = some (agent, t) →
      (e ∈ (delete_old_records st agent keep).1.metrics ↔
        (t, e.1) ∈ (sortRecords (agentRecords st agent)).drop
          ((sortRecords (agentRecords st agent)).length - keep))) ∧
    (∀ x ∈ (sortRecords (agentRecords st agent)).take
        ((sortRecords (agentRecords st agent)).length - keep),
      ∀ y ∈ (sortRecords (agentRecords st agent)).drop
        ((sortRecords (agentRecords st agent)).length - keep), recLeB x y = true) ∧
    LatestExact (delete_old_records st agent keep).1 agent ∧
    (delete_old_records st agent keep).2 =
      (agentRowsOf st agent).length - min (agentRowsOf st agent).length keep :=
  ⟨delete_old_count_min st agent keep hg ha,
   delete_old_mem st agent keep hg ha,
   delete_old_sep st agent keep,
   delete_old_latest_exact st agent keep hg ha hex,
   delete_old_return st agent keep hg ha⟩

/-- C5 witness: the statement applied to the empty store. -/
theorem C5_witness :
    GoodStore ⟨[], [], 0⟩ ∧ (0 ∉ ([97] : Str)) ∧ LatestExact ⟨[], [], 0⟩ [97] ∧
    (agentRowsOf (delete_old_records ⟨[], [], 0⟩ [97] 0).1 [97]).length =
      min (agentRowsOf ⟨[], [], 0⟩ [97]).length 0 :=
  ⟨by decide, by decide, by decide,
    (C5_delete_old ⟨[], [], 0⟩ [97] 0 (by decide) (by decide) (by decide)).1⟩

/-- C6 counterexample: with two equal cached samples, limit 3 and an empty
persisted result, `get_agent_history` returns the cache history unchanged —
skipping the merge, sort, dedup and truncate pipeline the claim describes,
which would deduplicate the two equal entries. -/
theorem C6_counterexample :
    storageGetHistory (some (.ok []))
        [⟨[97], 1, []⟩, ⟨[97], 1, []⟩] 3 = [⟨[97], 1, []⟩, ⟨[97], 1, []⟩] ∧
    specGetHistory (some (.ok []))
        [⟨[97], 1, []⟩, ⟨[97], 1, []⟩] 3 = [⟨[97], 1, []⟩] ∧
    storageGetHistory (some (.ok [])) [⟨[97], 1, []⟩, ⟨[97], 1, []⟩] 3 ≠
      specGetHistory (some (.ok [])) [⟨[97], 1, []⟩, ⟨[97], 1, []⟩] 3 := by
  refine ⟨by decide, by decide, by decide⟩

/-- C6 (corrected): `get_agent_history` follows the claimed limit-0, memory
-only, cache-full and merge behaviour, except that an empty persisted list
short-circuits to the cache history without the sort/dedup/truncate
pipeline; whenever the persisted list is non-empty the code agrees with the
specification's description. -/
theorem C6_get_history (persist : Option (Except Str (List Sample)))
    (cacheDeque : List Sample) (limit : Nat)
    (hne : ∀ persisted, persist = some (.ok persisted) → persisted ≠ []) :
    storageGetHistory persist cacheDeque limit =
      specGetHistory persist cacheDeque limit := by
  by_cases h0 : limit = 0
  · simp only [storageGetHistory, specGetHistory, if_pos h0]
  · cases persist with
    | none =>
      simp only [storageGetHistory, specGetHistory, if_neg h0]
    | some outcome =>
      cases outcome with
      | error e =>
        simp only [storageGetHistory, specGetHistory, if_neg h0]
      | ok persisted =>
        have hp : persisted ≠ [] := hne persisted rfl
        have hie : persisted.isEmpty = false := by
          cases persisted with
          | nil => exact absurd rfl hp
          | cons x xs => rfl
        simp only [storageGetHistory, specGetHistory, if_neg h0, hie,
          Bool.false_eq_true, if_false]

/-- C6 witness: the amended statement applied to a non-empty persisted
list. -/
theorem C6_witness :
    (∀ persisted, (some (.ok [⟨[98], 2, []⟩]) :
        Option (Except Str (List Sample))) = some (.ok persisted) →
      persisted ≠ []) ∧
    storageGetHistory (some (.ok [⟨[98], 2, []⟩])) [⟨[97], 1, []⟩] 2 =
      specGetHistory (some (.ok [⟨[98], 2, []⟩])) [⟨[97], 1, []⟩] 2 :=
  ⟨fun p hp => by
      injection hp with h1
      injection h1 with h2
      rw [← h2]
      decide,
   C6_get_history (some (.ok [⟨[98], 2, []⟩])) [⟨[97], 1, []⟩] 2
     (fun p hp => by
       injection hp with h1
       injection h1 with h2
       rw [← h2]
       decide)⟩

/-- C7: for one agent and in-range non-negative timestamps, `make_key`
orders keys exactly as the timestamps compare, ties resolved first by the
nanosecond component and then by the insertion sequence number; and any
`make_key` key lying in an agent's `make_key_range` window belongs to that
agent (NUL-free agent ids). -/
theorem C7_key_order (a b : Str) (t1 t2 t : Int) (n1 n2 n s1 s2 s : Nat)
    (ha : 0 ∉ a) (hb : 0 ∉ b)
    (h10 : 0 ≤ t1) (h1m : t1 ≤ (maxI64 : Int)) (h20 : 0 ≤ t2)
    (h2m : t2 ≤ (maxI64 : Int)) (hn1 : n1 < 16 ^ 32) (hn2 : n2 < 16 ^ 32)
    (hs1 : s1 < 16 ^ 16) (hs2 : s2 < 16 ^ 16) :
    lexCompare (make_key a t1 n1 s1) (make_key a t2 n2 s2) =
      (compare t1 t2).then ((compare n1 n2).then (compare s1 s2)) ∧
    (inRangeB a (make_key b t n s) = true → b = a) :=
  ⟨make_key_order a t1 t2 n1 n2 s1 s2 h10 h1m h20 h2m hn1 hn2 hs1 hs2,
   fun h => make_key_range_unique a b t n s ha hb h⟩

/-- C7 witness: the statement applied to concrete agents, timestamps and
nonces. -/
theorem C7_witness :
    (0 ∉ ([97] : Str)) ∧ (0 ∉ ([98] : Str)) ∧
    ((0 : Int) ≤ 0) ∧ ((0 : Int) ≤ (maxI64 : Int)) ∧ ((0 : Int) ≤ 1) ∧
    ((1 : Int) ≤ (maxI64 : Int)) ∧ (2 < 16 ^ 32) ∧ (3 < 16 ^ 32) ∧
    (4 < 16 ^ 16) ∧ (5 < 16 ^ 16) ∧
    lexCompare (make_key [97] 0 2 4) (make_key [97] 1 3 5) =
      (compare (0 : Int) 1).then ((compare 2 3).then (compare 4 5)) :=
  ⟨by decide, by decide, by decide, by decide, by decide, by decide,
   by decide, by decide, by decide, by decide,
   (C7_key_order [97] [98] 0 1 0 2 3 0 4 5 0 (by decide) (by decide) (by decide)
     (by decide) (by decide) (by decide) (by decide) (by decide) (by decide)
     (by decide)).1⟩

/-- C8: when a database path is given but opening the store fails,
`with_config` still constructs the handle in the memory-only shape —
persistence disabled, no write channel, no writer or cleanup task — and
`save_metrics_sync` thereafter returns success after only updating the
cache. -/
theorem C8_fallback (p : Str) (enableCleanup : Bool) (cap : Nat) :
    with_config (some p) enableCleanup cap none = ⟨false, none, false, false, none⟩ ∧
    (with_config (some p) enableCleanup cap none).persistEnabled = false ∧
    (with_config (some p) enableCleanup cap none).hasWriterTask = false ∧
    (with_config (some p) enableCleanup cap none).hasCleanupTask = false ∧
    ∀ maxSize deque m ackId,
      save_metrics_sync (with_config (some p) enableCleanup cap none)
          maxSize deque m ackId =
        (with_config (some p) enableCleanup cap none,
          cacheUpdate maxSize deque m, true) :=
  ⟨rfl, rfl, rfl, rfl, fun _ _ _ _ => rfl⟩

/-- C9: a persistence-layer read error is swallowed by every façade read:
`get_agent_latest` falls back to the cached latest, `get_agent_history` to
the cache's history, and `get_all_agents` to the cache's agent set. -/
theorem C9_read_fallbacks (emsg : Str) :
    (∀ cacheLatest, storageGetLatest (some (.error emsg)) cacheLatest = cacheLatest) ∧
    (∀ cacheDeque limit, storageGetHistory (some (.error emsg)) cacheDeque limit =
      cacheGetHistory cacheDeque limit) ∧
    (∀ cacheAgents, storageGetAllAgents cacheAgents (some (.error emsg)) =
      sortStrings cacheAgents.dedup) := by
  refine ⟨?_, ?_, ?_⟩
  · intro cl
    cases cl with
    | some m => rfl
    | none => rfl
  · intro cd limit
    by_cases h0 : limit = 0
    · subst h0
      rw [cacheGetHistory_zero]
      rfl
    · simp only [storageGetHistory]
      rw [if_neg h0]
      by_cases hlim : limit ≤ (cacheGetHistory cd limit).length
      · rw [if_pos hlim]
      · rw [if_neg hlim]
  · intro ca
    simp only [storageGetAllAgents]
    rw [List.append_nil]

/-- C10: for a legacy row — a key without a NUL byte whose
`rsplit_once(':')` suffix parses as the timestamp — every persistent-store
query and delete includes it for its agent: `get_latest_metrics` returns a
result, `query_latest_by_agent` returns the row's sample (when the limit
accommodates the agent's rows), `delete_old_records` with `keep = 0`
deletes it, and `delete_before_timestamp` deletes it once its timestamp is
below the cutoff and the agent is listed in `agent_latest`. -/
theorem C10_legacy_scans (st : Store) (agent : Str) (e : Str × Sample) (t : Int)
    (hg : GoodStore st) (he : e ∈ st.metrics)
    (hleg : strContains e.1 0 = false) (hp : parse_key e.1 = some (agent, t)) :
    (∃ suf, rsplitOnce 58 e.1 = some (agent, suf) ∧ parseI64 suf = some t) ∧
    (∃ s, get_latest_metrics st agent = some s) ∧
    (∀ limit, ¬ limit = 0 →
      ¬ limit < (sortByTs
        (rowsForAgent agent (st.metrics.filter fun f => inRangeB agent f.1) ++
          rowsForAgent agent (st.metrics.filter fun f => !strContains f.1 0))).length →
      e.2 ∈ query_latest_by_agent st agent limit) ∧
    e ∉ (delete_old_records st agent 0).1.metrics ∧
    (∀ before, t < before → agent ∈ st.agent_latest.map Prod.fst →
      e ∉ (delete_before_timestamp st before).1.metrics) := by
  have ha : 0 ∉ agent := parse_key_no_zero e.1 agent t hleg hp
  exact ⟨parse_key_legacy_split e.1 agent t hleg hp,
    get_latest_metrics_legacy_some st agent e he hleg t hp,
    fun limit h0 hlen => query_latest_legacy_mem st agent limit e he hleg t hp h0 hlen,
    delete_old_removes_all st agent hg ha e t hp,
    fun before hlt hag => delete_before_not_mem st before agent e t hg hp hlt hag⟩

/-- C10 witness: the statement applied to a concrete store holding the
legacy row `"a:5"`. -/
theorem C10_witness :
    GoodStore ⟨[([97, 58, 53], ⟨[97], 5, []⟩)], [([97], 5)], 0⟩ ∧
    ([97, 58, 53], (⟨[97], 5, []⟩ : Sample)) ∈
      Store.metrics ⟨[([97, 58, 53], ⟨[97], 5, []⟩)], [([97], 5)], 0⟩ ∧
    strContains [97, 58, 53] 0 = false ∧
    parse_key [97, 58, 53] = some ([97], 5) ∧
    (∃ suf, rsplitOnce 58 [97, 58, 53] = some ([97], suf) ∧ parseI64 suf = some 5) :=
  ⟨by decide, by decide, by decide, by decide,
    (C10_legacy_scans ⟨[([97, 58, 53], ⟨[97], 5, []⟩)], [([97], 5)], 0⟩ [97]
      ([97, 58, 53], ⟨[97], 5, []⟩) 5 (by decide) (by decide) (by decide)
      (by decide)).1⟩

end Iris
